import Mathlib

/-!
maiden: resource paths, device paths, directory listings and rename.

A shallow embedding of `main.go` of the maiden REST server together with the
Go standard-library functions it calls (`path/filepath.Clean`, `Join`, `Dir`,
`strings.Join`, `net/url.PathEscape`, `PathUnescape`), on Unix.

Go strings are byte sequences; they are modelled as lists of natural numbers,
each a byte.  47 is the slash, 46 the dot, 37 the percent sign.

The handlers are functions of what they read from the gin context and of the
results of the operating-system calls they make, which are passed in as
functions: `ctx.Param("name")` (gin delivers the part of the path matched by
`*name`, leading slash included), `ctx.GetPostForm("name")`, `os.Stat`,
`ioutil.ReadDir` and `os.Rename`.  A handler returns what it writes to the
context; `renameHandler` also returns the `os.Rename` calls it makes.
-/

namespace Maiden

/-- A Go string: a sequence of bytes. -/
abbrev GoString := List Nat

/-- The UTF-8 bytes of a string literal. -/
def bytes (s : String) : GoString :=
  (s.toList.flatMap String.utf8EncodeChar).map UInt8.toNat

/-! ## strings.Join -/

/-- Go `strings.Join(elems, sep)`. -/
def stringsJoin : List GoString → GoString → GoString
  | [], _ => []
  | [a], _ => a
  | a :: b :: rest, sep => a ++ sep ++ stringsJoin (b :: rest) sep

/-! ## path/filepath (Unix) -/

/-- Go `os.IsPathSeparator` on Unix. -/
def isPathSeparator (c : Nat) : Bool := c == 47

/-- The inner loop of the `..` case of `filepath.Clean`:
`for out.w > dotdot && !os.IsPathSeparator(out.index(out.w)) { out.w-- }`,
started at write index `w`; returns the final write index. -/
def backtrackTo (buf : List Nat) (dotdot : Nat) : Nat → Nat
  | 0 => 0
  | w + 1 =>
    if w + 1 > dotdot ∧ !isPathSeparator (buf.getD (w + 1) 0) then backtrackTo buf dotdot w
    else w + 1

/-- The `can backtrack` branch of `filepath.Clean`: `out.w--` followed by the
inner loop; the buffer is cut at the final write index. -/
def backtrack (out : List Nat) (dotdot : Nat) : List Nat :=
  out.take (backtrackTo out dotdot (out.length - 1))

/-- The main loop of `filepath.Clean`.  The unread input `path[r:]` is the list
argument, `out` is the written part of the lazy buffer (so `out.w` is
`out.length`), `dotdot` is the index where `..` must stop.  Each iteration
consumes at least one byte, so `fuel = len(path)` iterations suffice. -/
def cleanLoop (rooted : Bool) : Nat → List Nat → List Nat → Nat → List Nat
  | 0, _, out, _ => out
  | _ + 1, [], out, _ => out
  | fuel + 1, c :: rest, out, dotdot =>
    if isPathSeparator c then
      -- empty path element
      cleanLoop rooted fuel rest out dotdot
    else if c = 46 ∧ (rest = [] ∨ (rest.head?.map isPathSeparator = some true)) then
      -- . element
      cleanLoop rooted fuel rest out dotdot
    else if c = 46 ∧ rest.head? = some 46 ∧
        (rest.tail = [] ∨ (rest.tail.head?.map isPathSeparator = some true)) then
      -- .. element: remove to last separator
      if out.length > dotdot then
        cleanLoop rooted fuel rest.tail (backtrack out dotdot) dotdot
      else if !rooted then
        let out1 := if out.length > 0 then out ++ [47] else out
        let out2 := out1 ++ [46, 46]
        cleanLoop rooted fuel rest.tail out2 out2.length
      else
        cleanLoop rooted fuel rest.tail out dotdot
    else
      -- real path element: add slash if needed, copy element
      let out1 :=
        if (rooted ∧ out.length ≠ 1) ∨ (!rooted ∧ out.length ≠ 0) then out ++ [47] else out
      cleanLoop rooted fuel ((c :: rest).dropWhile (fun b => !isPathSeparator b))
        (out1 ++ (c :: rest).takeWhile (fun b => !isPathSeparator b)) dotdot

/-- Go `filepath.IsAbs` on Unix: `strings.HasPrefix(path, "/")`. -/
def IsAbs : GoString → Bool
  | [] => false
  | c :: _ => isPathSeparator c

/-- Go `filepath.Clean` on Unix (no volume name): the empty path gives `.`;
otherwise `rooted` is whether the first byte is a separator, the loop starts
after it, and an empty result is turned into `.`. -/
def Clean : GoString → GoString
  | [] => [46]
  | c :: rest =>
    let rooted := isPathSeparator c
    let out := cleanLoop rooted (c :: rest).length (if rooted then rest else c :: rest)
      (if rooted then [47] else []) (if rooted then 1 else 0)
    if out.length = 0 then [46] else out

/-- Go `filepath.Join` on Unix: the first non-empty element onwards is joined
with the separator and cleaned; all elements empty gives the empty string. -/
def Join : List GoString → GoString
  | [] => []
  | e :: rest => if e ≠ [] then Clean (stringsJoin (e :: rest) [47]) else Join rest

/-- The loop of `filepath.Dir`: `for i >= 0 && !os.IsPathSeparator(path[i]) { i-- }`;
the argument and the result are `i + 1`. -/
def dirEnd (path : GoString) : Nat → Nat
  | 0 => 0
  | i + 1 => if !isPathSeparator (path.getD i 0) then dirEnd path i else i + 1

/-- Go `filepath.Dir` on Unix. -/
def Dir (path : GoString) : GoString :=
  Clean (path.take (dirEnd path path.length))

/-! ## net/url -/

/-- Go `url.shouldEscape(c, encodePathSegment)`. -/
def shouldEscape (c : Nat) : Bool :=
  if (97 ≤ c ∧ c ≤ 122) ∨ (65 ≤ c ∧ c ≤ 90) ∨ (48 ≤ c ∧ c ≤ 57) then false
  else if c = 45 ∨ c = 95 ∨ c = 46 ∨ c = 126 then false
  else if c = 36 ∨ c = 38 ∨ c = 43 ∨ c = 44 ∨ c = 47 ∨ c = 58 ∨ c = 59 ∨ c = 61 ∨ c = 63 ∨
      c = 64 then
    c = 47 ∨ c = 59 ∨ c = 44 ∨ c = 63
  else true

/-- Go `upperhex[i]`, the table `0123456789ABCDEF`. -/
def upperhex (i : Nat) : Nat := if i < 10 then 48 + i else 55 + i

/-- Go `url.PathEscape`: every byte that should be escaped becomes `%XX`. -/
def PathEscape : GoString → GoString
  | [] => []
  | c :: s =>
    if shouldEscape c then 37 :: upperhex (c / 16) :: upperhex (c % 16) :: PathEscape s
    else c :: PathEscape s

/-- Go `url.ishex`. -/
def ishex (c : Nat) : Bool :=
  (48 ≤ c ∧ c ≤ 57) ∨ (97 ≤ c ∧ c ≤ 102) ∨ (65 ≤ c ∧ c ≤ 70)

/-- Go `url.unhex`. -/
def unhex (c : Nat) : Nat :=
  if 48 ≤ c ∧ c ≤ 57 then c - 48
  else if 97 ≤ c ∧ c ≤ 102 then c - 97 + 10
  else if 65 ≤ c ∧ c ≤ 70 then c - 65 + 10
  else 0

/-- The first pass of Go `url.unescape` in path-segment mode: every `%` must be
followed by two hex digits (`i+2 >= len(s) || !ishex(s[i+1]) || !ishex(s[i+2])`
is the error case), and the scan continues after them. -/
def unescapeCheck : GoString → Bool
  | [] => true
  | c :: s =>
    if c = 37 then
      match s with
      | a :: b :: t => ishex a && ishex b && unescapeCheck t
      | _ => false
    else unescapeCheck s

/-- The second pass of Go `url.unescape` in path-segment mode:
`%XY` becomes the byte `unhex(X)<<4 | unhex(Y)`, every other byte is copied
(`+` stays `+` in this mode). -/
def unescapeBytes : GoString → GoString
  | [] => []
  | c :: s =>
    if c = 37 then
      match s with
      | a :: b :: t => (unhex a * 16 + unhex b) % 256 :: unescapeBytes t
      | _ => c :: s
    else c :: unescapeBytes s

/-- Go `url.PathUnescape`; `none` stands for the `EscapeError`. -/
def PathUnescape (s : GoString) : Option GoString :=
  if unescapeCheck s then some (unescapeBytes s) else none

/-! ## main.go -/

/-- The closure returned by `makeDevicePath(prefix)`, applied to `*name`. -/
def makeDevicePath (pfx : GoString) (name : GoString) : GoString :=
  Join [pfx, name]

/-- The closure returned by `makeResourcePath(prefix)`, applied to `parts...`:
each part is escaped and appended in turn, the escaped parts are joined, and the
result is joined under the prefix. -/
def makeResourcePath (pfx : GoString) (parts : List GoString) : GoString :=
  let escaped := parts.foldl (fun escaped part => escaped ++ [PathEscape part]) []
  Join [pfx, Join escaped]

/-- Go `fileInfo`: `Children` is a pointer, `none` is the nil pointer. -/
inductive fileInfo where
  | mk (Name : GoString) (URL : GoString) (Children : Option (List fileInfo))

/-- Field `Name` of `fileInfo`. -/
def fileInfo.Name : fileInfo → GoString
  | .mk n _ _ => n

/-- Field `URL` of `fileInfo`. -/
def fileInfo.URL : fileInfo → GoString
  | .mk _ u _ => u

/-- Field `Children` of `fileInfo`. -/
def fileInfo.Children : fileInfo → Option (List fileInfo)
  | .mk _ _ c => c

/-- Go `dirInfo`. -/
structure dirInfo where
  Path : GoString
  URL : GoString
  Entries : List fileInfo

/-- Go `patchInfo`. -/
structure patchInfo where
  URL : GoString

/-- What the handlers read of an `os.FileInfo`: `Name()` and `IsDir()`. -/
structure FileInfo where
  Name : GoString
  IsDir : Bool

/-- Go `handleDirRead`. -/
def handleDirRead (path : GoString) (entries : List FileInfo)
    (resourcePath : List GoString → GoString) : dirInfo :=
  let files := entries.foldl
    (fun files entry =>
      let children : Option (List fileInfo) := if entry.IsDir then some [] else none
      files ++ [fileInfo.mk entry.Name (resourcePath [entry.Name]) children])
    []
  { Path := path, URL := resourcePath [[]], Entries := files }

/-- Go `server` (without the logger). -/
structure server where
  apiPrefix : GoString
  devicePath : GoString → GoString
  resourcePath : List GoString → GoString

/-- The server built by `main` for a data directory: the API root is `/api/v1`,
the prefix is `filepath.Join(apiRoot, "dust")`. -/
def mkServer (dataDir : GoString) : server :=
  let apiPrefix := Join [bytes "/api/v1", bytes "dust"]
  { apiPrefix := apiPrefix
    devicePath := makeDevicePath dataDir
    resourcePath := makeResourcePath apiPrefix }

/-- What a handler writes to the gin context: `ctx.JSON(status, body)` with one
of the three body shapes, or `ctx.File(path)`. -/
inductive Response where
  | jsonError (status : Nat) (error : GoString)
  | jsonDir (status : Nat) (dir : dirInfo)
  | jsonPatch (status : Nat) (info : patchInfo)
  | file (path : GoString)

/-- The HTTP status of a JSON response. -/
def Response.status : Response → Option Nat
  | .jsonError st _ => some st
  | .jsonDir st _ => some st
  | .jsonPatch st _ => some st
  | .file _ => none

/-- Go `server.rootListingHandler`; `readDir` stands for `ioutil.ReadDir`. -/
def rootListingHandler (s : server)
    (readDir : GoString → Except GoString (List FileInfo)) : Response :=
  let top : GoString := []
  match readDir (s.devicePath top) with
  | .error err => .jsonError 400 err
  | .ok entries => .jsonDir 200 (handleDirRead [] entries s.resourcePath)

/-- Go `server.listingHandler`; `name` is `ctx.Param("name")`, `osStat` stands
for `os.Stat`, `readDir` for `ioutil.ReadDir`. -/
def listingHandler (s : server) (name : GoString)
    (osStat : GoString → Except GoString FileInfo)
    (readDir : GoString → Except GoString (List FileInfo)) : Response :=
  let path := s.devicePath name
  match osStat path with
  | .error err => .jsonError 404 err
  | .ok info =>
    if info.IsDir then
      match readDir path with
      | .error err => .jsonError 400 err
      | .ok entries =>
        let pfx := Join [s.apiPrefix, name]
        let subResourcePath := makeResourcePath pfx
        .jsonDir 200 (handleDirRead name entries subResourcePath)
    else .file path

/-- Go `server.renameHandler`; `name` is `ctx.Param("name")`, `osStat` stands for
`os.Stat`, `postForm` is the result of `ctx.GetPostForm("name")` (`none` when
the key does not exist), `osRename` stands for `os.Rename` (`none` is a nil
error).  The second component lists the `os.Rename` calls made. -/
def renameHandler (s : server) (name : GoString)
    (osStat : GoString → Except GoString FileInfo)
    (postForm : Option GoString)
    (osRename : GoString → GoString → Option GoString) :
    Response × List (GoString × GoString) :=
  let path := s.devicePath name
  match osStat path with
  | .error err => (.jsonError 404 err, [])
  | .ok _ =>
    match postForm with
    | none => (.jsonError 400 (bytes "missing \x27name\x27 key in form"), [])
    | some newName =>
      let rename := Join [Dir name, newName]
      let renamePath := s.devicePath rename
      match osRename path renamePath with
      | some err => (.jsonError 500 err, [(path, renamePath)])
      | none => (.jsonPatch 200 { URL := s.resourcePath [rename] }, [(path, renamePath)])

/-! ## Path elements, used to state and prove the properties -/

/-- Go `strings.Split(s, "/")`: the slash-separated segments of a string. -/
def splitSep : GoString → List GoString
  | [] => [[]]
  | c :: s =>
    if c = 47 then [] :: splitSep s
    else match splitSep s with
      | [] => [[c]]
      | h :: t => (c :: h) :: t

/-- The segments `filepath.Clean` looks at: the empty ones and the `.` ones are
skipped. -/
def elems (p : GoString) : List GoString :=
  (splitSep p).filter (fun s => decide (s ≠ [] ∧ s ≠ [46]))

/-- One element read by `filepath.Clean`, on the list of elements written so
far: `..` removes the last element when there is one that is not `..`, is
dropped at the root of a rooted path, and is kept otherwise. -/
def cleanStep (rooted : Bool) (st : List GoString) (seg : GoString) : List GoString :=
  if seg = [46, 46] then
    match st.getLast? with
    | some top => if top = [46, 46] then st ++ [seg] else st.dropLast
    | none => if rooted then st else st ++ [seg]
  else st ++ [seg]

/-- The buffer that holds a list of elements: a leading slash when rooted, the
elements separated by slashes. -/
def render (rooted : Bool) (st : List GoString) : GoString :=
  (if rooted then [47] else []) ++ stringsJoin st [47]

/-- An element that is kept as it is: not empty, without slash, not `.` or `..`. -/
def Ordinary (seg : GoString) : Prop :=
  seg ≠ [] ∧ 47 ∉ seg ∧ seg ≠ [46] ∧ seg ≠ [46, 46]

instance (seg : GoString) : Decidable (Ordinary seg) := by
  unfold Ordinary; infer_instance

/-- The leading `..` elements of a cleaned relative path. -/
def dd (k : Nat) : List GoString := List.replicate k [46, 46]

/-- The value of `dotdot` in `filepath.Clean` after `k` leading `..` elements. -/
def ddIdx (rooted : Bool) (k : Nat) : Nat :=
  if rooted then 1 else (stringsJoin (dd k) [47]).length

/-- The elements of a path after `filepath.Clean` has read all of them. -/
def cleanElems (rooted : Bool) (p : GoString) : List GoString :=
  (elems p).foldl (cleanStep rooted) []

/-- The string `filepath.Clean` returns for a list of elements: the buffer, or
`.` when the buffer is empty. -/
def renderD (rooted : Bool) (st : List GoString) : GoString :=
  if render rooted st = [] then [46] else render rooted st

/-- The lists of elements `filepath.Clean` can end with: leading `..` elements
(none when rooted) followed by ordinary elements. -/
def NF (rooted : Bool) (st : List GoString) : Prop :=
  ∃ k body, st = dd k ++ body ∧ (rooted = true → k = 0) ∧ ∀ s ∈ body, Ordinary s

/-- An element `filepath.Clean` does not skip: not empty, without slash, not `.`. -/
def Kept (seg : GoString) : Prop := seg ≠ [] ∧ 47 ∉ seg ∧ seg ≠ [46]

/-- Path `p` is the cleaned root `c` or lies below it: `c`, a separator (the
one of `c` itself when `c` is the root directory `/`) and one or more ordinary
segments. -/
def Within (c p : GoString) : Prop :=
  p = c ∨ ∃ segs : List GoString, segs ≠ [] ∧ (∀ s ∈ segs, Ordinary s) ∧
    p = (if c = [47] then c else c ++ [47]) ++ stringsJoin segs [47]

/-- Whether the `..` segments of a name climb above the directory the name is
resolved in: `d` is the number of ordinary segments read so far and not yet
cancelled; empty and `.` segments are skipped. -/
def climbsAbove : Nat → List GoString → Bool
  | _, [] => false
  | d, seg :: rest =>
    if seg = [] ∨ seg = [46] then climbsAbove d rest
    else if seg = [46, 46] then
      match d with
      | 0 => true
      | d + 1 => climbsAbove d rest
    else climbsAbove (d + 1) rest

/-- The last slash-separated segment of a name. -/
def lastSeg (n : GoString) : GoString := (splitSep n).getLast?.getD []

/-- Percent-decoding of a list of URL pieces; fails when one of them fails. -/
def unescapeAll : List GoString → Option (List GoString)
  | [] => some []
  | p :: ps =>
    match PathUnescape p, unescapeAll ps with
    | some a, some as => some (a :: as)
    | _, _ => none

/-- The decoding the spec describes (it is not a function of `main.go`): the
resource name of a URL is obtained by stripping the prefix, splitting the
remainder on the slash into its path segments (the empty piece in front of the
joining slash is not a segment) and percent-decoding each of them. -/
def specDecode (pfx url : GoString) : Option (List GoString) :=
  if pfx.isPrefixOf url then
    unescapeAll ((splitSep (url.drop pfx.length)).filter (fun s => decide (s ≠ [])))
  else none

/-- The `url` of a rename response, when the response is one. -/
def Response.patchURL : Response → Option GoString
  | .jsonPatch _ info => some info.URL
  | _ => none

/-- The listing of a directory response, when the response is one. -/
def Response.dir : Response → Option dirInfo
  | .jsonDir _ d => some d
  | _ => none

/-! ## Theorems -/

/-! ### Splitting on the separator -/

theorem splitSep_ne_nil (s : GoString) : splitSep s ≠ [] := by
  induction s with
  | nil => simp [splitSep]
  | cons c s ih =>
    unfold splitSep
    split
    · simp
    · split <;> simp

theorem splitSep_sep_cons (s : GoString) : splitSep (47 :: s) = [] :: splitSep s := by
  simp [splitSep]

theorem splitSep_cons_of_ne (c : Nat) (s : GoString) (hc : c ≠ 47) :
    splitSep (c :: s) = (c :: (splitSep s).headD []) :: (splitSep s).tail := by
  have h := splitSep_ne_nil s
  rw [splitSep]
  simp only [hc, if_false]
  cases hs : splitSep s with
  | nil => exact absurd hs h
  | cons a t => simp

theorem splitSep_append_sep (a b : GoString) :
    splitSep (a ++ 47 :: b) = splitSep a ++ splitSep b := by
  induction a with
  | nil => simp [splitSep]
  | cons c a ih =>
    by_cases hc : c = 47
    · subst hc
      simp [splitSep_sep_cons, ih]
    · have h := splitSep_ne_nil a
      rw [List.cons_append, splitSep_cons_of_ne _ _ hc, splitSep_cons_of_ne _ _ hc, ih]
      cases hs : splitSep a with
      | nil => exact absurd hs h
      | cons x t => simp

theorem splitSep_of_not_mem (s : GoString) (h : 47 ∉ s) : splitSep s = [s] := by
  induction s with
  | nil => simp [splitSep]
  | cons c s ih =>
    simp only [List.mem_cons, not_or] at h
    rw [splitSep_cons_of_ne _ _ (fun e => h.1 e.symm), ih h.2]
    simp

theorem splitSep_seg_sep (seg b : GoString) (h : 47 ∉ seg) :
    splitSep (seg ++ 47 :: b) = seg :: splitSep b := by
  rw [splitSep_append_sep, splitSep_of_not_mem _ h]; simp

theorem elems_nil : elems [] = [] := by
  simp [elems, splitSep]

theorem elems_sep_cons (s : GoString) : elems (47 :: s) = elems s := by
  simp [elems, splitSep_sep_cons]

theorem elems_append_sep (a b : GoString) : elems (a ++ 47 :: b) = elems a ++ elems b := by
  simp [elems, splitSep_append_sep]

theorem isPathSeparator_iff (c : Nat) : isPathSeparator c = true ↔ c = 47 := by
  simp [isPathSeparator]

theorem not_mem_takeWhile (s : GoString) :
    47 ∉ s.takeWhile (fun b => !isPathSeparator b) := by
  intro h
  have := List.mem_takeWhile_imp h
  simp [isPathSeparator] at this

theorem dropWhile_cases (s : GoString) :
    s.dropWhile (fun b => !isPathSeparator b) = [] ∨
    ∃ r, s.dropWhile (fun b => !isPathSeparator b) = 47 :: r := by
  induction s with
  | nil => simp
  | cons c s ih =>
    by_cases hc : c = 47
    · subst hc; right; exact ⟨s, by simp [List.dropWhile, isPathSeparator]⟩
    · have : List.dropWhile (fun b => !isPathSeparator b) (c :: s) =
          List.dropWhile (fun b => !isPathSeparator b) s := by
        simp [List.dropWhile_cons, isPathSeparator, hc]
      rw [this]; exact ih

theorem elems_of_seg (seg : GoString) (h : 47 ∉ seg) (h1 : seg ≠ []) (h2 : seg ≠ [46]) :
    elems seg = [seg] := by
  simp [elems, splitSep_of_not_mem _ h, h1, h2]

theorem elems_seg_sep (seg r : GoString) (h : 47 ∉ seg) (h1 : seg ≠ []) (h2 : seg ≠ [46]) :
    elems (seg ++ 47 :: r) = seg :: elems r := by
  rw [elems_append_sep, elems_of_seg _ h h1 h2]; simp

theorem elems_takeWhile (s : GoString)
    (h1 : s.takeWhile (fun b => !isPathSeparator b) ≠ [])
    (h2 : s.takeWhile (fun b => !isPathSeparator b) ≠ [46]) :
    elems s = s.takeWhile (fun b => !isPathSeparator b) ::
      elems (s.dropWhile (fun b => !isPathSeparator b)) := by
  have key : elems (s.takeWhile (fun b => !isPathSeparator b) ++
      s.dropWhile (fun b => !isPathSeparator b)) =
      s.takeWhile (fun b => !isPathSeparator b) ::
        elems (s.dropWhile (fun b => !isPathSeparator b)) := by
    rcases dropWhile_cases s with hd | ⟨r, hd⟩
    · rw [hd, List.append_nil, elems_nil]
      exact elems_of_seg _ (not_mem_takeWhile s) h1 h2
    · rw [hd, elems_sep_cons]
      exact elems_seg_sep _ _ (not_mem_takeWhile s) h1 h2
  rwa [List.takeWhile_append_dropWhile] at key

theorem elems_dot (rest : GoString)
    (h : rest = [] ∨ rest.head?.map isPathSeparator = some true) :
    elems (46 :: rest) = elems rest := by
  rcases h with h | h
  · subst h; simp [elems, splitSep]
  · cases rest with
    | nil => simp at h
    | cons d r =>
      simp [isPathSeparator] at h
      subst h
      have : (46 : Nat) :: 47 :: r = [46] ++ 47 :: r := rfl
      rw [this, elems_append_sep, elems_sep_cons]
      simp [elems, splitSep]

theorem elems_dotdot (rest : GoString) (h0 : rest.head? = some 46)
    (h : rest.tail = [] ∨ rest.tail.head?.map isPathSeparator = some true) :
    elems (46 :: rest) = [46, 46] :: elems rest.tail := by
  cases rest with
  | nil => simp at h0
  | cons d r =>
    simp at h0; subst h0
    simp only [List.tail_cons] at h ⊢
    rcases h with h | h
    · subst h; simp [elems, splitSep]
    · cases r with
      | nil => simp at h
      | cons e r =>
        simp [isPathSeparator] at h
        subst h
        have : (46 : Nat) :: 46 :: 47 :: r = [46, 46] ++ 47 :: r := rfl
        rw [this, elems_seg_sep _ _ (by decide) (by decide) (by decide), elems_sep_cons]

theorem real_takeWhile (c : Nat) (rest : GoString) (hc : isPathSeparator c = false)
    (h2 : ¬ (c = 46 ∧ (rest = [] ∨ rest.head?.map isPathSeparator = some true)))
    (h3 : ¬ (c = 46 ∧ rest.head? = some 46 ∧
        (rest.tail = [] ∨ rest.tail.head?.map isPathSeparator = some true))) :
    Ordinary ((c :: rest).takeWhile (fun b => !isPathSeparator b)) := by
  have hc1 : List.takeWhile (fun b => !isPathSeparator b) (c :: rest) =
      c :: List.takeWhile (fun b => !isPathSeparator b) rest := by
    simp [List.takeWhile, hc]
  have hmem := not_mem_takeWhile (c :: rest)
  rw [hc1] at hmem ⊢
  refine ⟨by simp, hmem, ?_, ?_⟩
  · intro h
    simp only [List.cons.injEq] at h
    obtain ⟨h46, ht⟩ := h
    apply h2
    refine ⟨h46, ?_⟩
    cases rest with
    | nil => left; rfl
    | cons d r =>
      right
      by_cases hd : isPathSeparator d = true
      · simp [hd]
      · simp [List.takeWhile, hd] at ht
  · intro h
    simp only [List.cons.injEq] at h
    obtain ⟨h46, ht⟩ := h
    apply h3
    refine ⟨h46, ?_⟩
    cases rest with
    | nil => simp at ht
    | cons d r =>
      by_cases hd : isPathSeparator d = true
      · simp [List.takeWhile, hd] at ht
      · simp [List.takeWhile, hd] at ht
        obtain ⟨hd46, ht⟩ := ht
        refine ⟨by simp [hd46], ?_⟩
        cases r with
        | nil => left; rfl
        | cons e r =>
          right
          by_cases he : isPathSeparator e = true
          · simp [he]
          · simp [List.takeWhile, he] at ht

theorem elems_real (c : Nat) (rest : GoString) (hc : isPathSeparator c = false)
    (h2 : ¬ (c = 46 ∧ (rest = [] ∨ rest.head?.map isPathSeparator = some true)))
    (h3 : ¬ (c = 46 ∧ rest.head? = some 46 ∧
        (rest.tail = [] ∨ rest.tail.head?.map isPathSeparator = some true))) :
    elems (c :: rest) = (c :: rest).takeWhile (fun b => !isPathSeparator b) ::
      elems ((c :: rest).dropWhile (fun b => !isPathSeparator b)) := by
  have hr := real_takeWhile c rest hc h2 h3
  exact elems_takeWhile _ hr.1 hr.2.2.1

/-! ### The output buffer of `filepath.Clean` -/

theorem stringsJoin_cons (a : GoString) (st : List GoString) (sep : GoString) :
    stringsJoin (a :: st) sep = a ++ (if st = [] then [] else sep ++ stringsJoin st sep) := by
  cases st with
  | nil => simp [stringsJoin]
  | cons b t => simp [stringsJoin]

theorem stringsJoin_append (a b : List GoString) (sep : GoString) :
    stringsJoin (a ++ b) sep =
      stringsJoin a sep ++ (if a = [] ∨ b = [] then [] else sep) ++ stringsJoin b sep := by
  induction a with
  | nil => simp [stringsJoin]
  | cons x a ih =>
    rw [List.cons_append, stringsJoin_cons, stringsJoin_cons, ih]
    by_cases ha : a = [] <;> by_cases hb : b = [] <;> simp [ha, hb, stringsJoin]

theorem stringsJoin_snoc (st : List GoString) (seg sep : GoString) :
    stringsJoin (st ++ [seg]) sep =
      (if st = [] then [] else stringsJoin st sep ++ sep) ++ seg := by
  rw [stringsJoin_append]
  by_cases h : st = [] <;> simp [h, stringsJoin]

theorem stringsJoin_eq_nil (st : List GoString) (sep : GoString)
    (h : ∀ s ∈ st, s ≠ []) : stringsJoin st sep = [] ↔ st = [] := by
  cases st with
  | nil => simp [stringsJoin]
  | cons a t =>
    rw [stringsJoin_cons]
    have := h a (by simp)
    simp [this]

theorem render_snoc (rooted : Bool) (st : List GoString) (seg : GoString) :
    render rooted (st ++ [seg]) =
      (if st = [] then render rooted [] else render rooted st ++ [47]) ++ seg := by
  unfold render
  rw [stringsJoin_snoc]
  by_cases h : st = [] <;> simp [h, stringsJoin]

theorem mem_dd (k : Nat) (s : GoString) (h : s ∈ dd k) : s = [46, 46] := by
  unfold dd at h
  exact (List.mem_replicate.1 h).2

theorem dd_succ (k : Nat) : dd k ++ [[46, 46]] = dd (k + 1) := by
  unfold dd
  rw [List.replicate_succ']

theorem ne_nil_of_real (st : List GoString) (h : ∀ s ∈ st, Ordinary s) : ∀ s ∈ st, s ≠ [] :=
  fun s hs => (h s hs).1

theorem dd_body_ne_nil (k : Nat) (body : List GoString) (h : ∀ s ∈ body, Ordinary s) :
    ∀ s ∈ dd k ++ body, s ≠ [] := by
  intro s hs
  rcases List.mem_append.1 hs with h1 | h1
  · rw [mem_dd k s h1]; simp
  · exact (h s h1).1

theorem render_length_gt (rooted : Bool) (k : Nat) (body : List GoString)
    (hk : rooted = true → k = 0) (hb : ∀ s ∈ body, Ordinary s) :
    (render rooted (dd k ++ body)).length > ddIdx rooted k ↔ body ≠ [] := by
  have hne := stringsJoin_eq_nil body [47] (ne_nil_of_real body hb)
  have hpos : 0 < (stringsJoin body [47]).length ↔ body ≠ [] := by
    rw [List.length_pos, Ne, Ne, hne]
  cases rooted with
  | true =>
    have := hk rfl
    subst this
    simp only [render, ddIdx, dd, List.replicate_zero, List.nil_append, if_true,
      List.length_append, List.length_singleton]
    rw [← hpos]
    omega
  | false =>
    simp only [render, ddIdx, List.nil_append, Bool.false_eq_true, if_false]
    rw [stringsJoin_append]
    simp only [List.length_append]
    constructor
    · intro h hb0
      simp [hb0, stringsJoin] at h
    · intro h
      have := hpos.2 h
      omega

theorem render_length_rooted (st : List GoString) (h : ∀ s ∈ st, s ≠ []) :
    (render true st).length ≠ 1 ↔ st ≠ [] := by
  have hne := stringsJoin_eq_nil st [47] h
  simp only [render, if_true, List.length_append, List.length_singleton]
  rw [Ne, Ne, ← hne, ← List.length_eq_zero]
  omega

theorem render_length_unrooted (st : List GoString) (h : ∀ s ∈ st, s ≠ []) :
    (render false st).length ≠ 0 ↔ st ≠ [] := by
  have hne := stringsJoin_eq_nil st [47] h
  simp only [render, Bool.false_eq_true, if_false, List.nil_append]
  rw [Ne, Ne, ← hne, List.length_eq_zero]

theorem backtrackTo_eq (buf : List Nat) (d t : Nat) (hd : d ≤ t)
    (ht : t = d ∨ buf[t]?.getD 0 = 47) :
    ∀ n, (∀ i, t < i → i ≤ t + n → buf[i]?.getD 0 ≠ 47) → backtrackTo buf d (t + n) = t := by
  intro n
  induction n with
  | zero =>
    intro _
    cases t with
    | zero => simp [backtrackTo]
    | succ w =>
      simp only [Nat.add_zero, backtrackTo]
      rcases ht with ht | ht
      · simp [ht]
      · rw [if_neg]
        simp [isPathSeparator, ht]
  | succ n ih =>
    intro h
    have h1 : buf[t + n + 1]?.getD 0 ≠ 47 := h _ (by omega) (by omega)
    have : t + (n + 1) = (t + n) + 1 := by omega
    rw [this, backtrackTo]
    have hcond : t + n + 1 > d ∧ (!isPathSeparator (buf.getD (t + n + 1) 0)) = true := by
      refine ⟨by omega, ?_⟩
      simp [isPathSeparator, h1]
    rw [if_pos hcond]
    exact ih (fun i hi1 hi2 => h i hi1 (by omega))

theorem backtrack_sep (R seg : List Nat) (d : Nat) (hd : d ≤ R.length) (hseg : 47 ∉ seg) :
    backtrack (R ++ 47 :: seg) d = R := by
  unfold backtrack
  have hlen : (R ++ 47 :: seg).length - 1 = R.length + seg.length := by simp
  rw [hlen, backtrackTo_eq _ d R.length hd
    (Or.inr (by rw [List.getElem?_append_right (Nat.le_refl _)]; simp))]
  · simp
  · intro i hi1 hi2 h47
    rw [List.getElem?_append_right (by omega)] at h47
    obtain ⟨j, hj⟩ : ∃ j, i - R.length = j + 1 := ⟨i - R.length - 1, by omega⟩
    rw [hj, List.getElem?_cons_succ] at h47
    cases hx : seg[j]? with
    | none => rw [hx] at h47; simp at h47
    | some x =>
      rw [hx] at h47
      simp at h47
      subst h47
      exact hseg (List.getElem?_mem hx)

theorem backtrack_nosep (R seg : List Nat) (hne : seg ≠ []) (hseg : 47 ∉ seg) :
    backtrack (R ++ seg) R.length = R := by
  unfold backtrack
  have hpos : 0 < seg.length := List.length_pos.2 hne
  have hlen : (R ++ seg).length - 1 = R.length + (seg.length - 1) := by
    simp only [List.length_append]; omega
  rw [hlen, backtrackTo_eq _ R.length R.length (Nat.le_refl _) (Or.inl rfl)]
  · simp
  · intro i hi1 hi2 h47
    rw [List.getElem?_append_right (by omega)] at h47
    cases hx : seg[i - R.length]? with
    | none => rw [hx] at h47; simp at h47
    | some x =>
      rw [hx] at h47
      simp at h47
      subst h47
      exact hseg (List.getElem?_mem hx)

/-! ### The loop of `filepath.Clean` in terms of path elements -/

theorem cleanStep_real (rooted : Bool) (st : List GoString) (seg : GoString)
    (h : seg ≠ [46, 46]) : cleanStep rooted st seg = st ++ [seg] := by
  simp [cleanStep, h]

theorem cleanStep_pop (rooted : Bool) (st : List GoString) (seg : GoString)
    (h : seg ≠ [46, 46]) : cleanStep rooted (st ++ [seg]) [46, 46] = st := by
  simp [cleanStep, h]

theorem cleanStep_push (k : Nat) : cleanStep false (dd k) [46, 46] = dd (k + 1) := by
  unfold cleanStep
  rw [if_pos rfl]
  unfold dd
  rw [List.getLast?_replicate]
  cases k with
  | zero => simp
  | succ n =>
    simp only [Nat.succ_ne_zero, if_false, if_true]
    rw [← List.replicate_succ']

theorem cleanStep_root : cleanStep true [] [46, 46] = [] := by
  simp [cleanStep]

theorem length_dropWhile_le (p : Nat → Bool) (s : List Nat) :
    (s.dropWhile p).length ≤ s.length := by
  induction s with
  | nil => simp
  | cons c s ih =>
    rw [List.dropWhile_cons]
    split
    · simp; omega
    · simp

/-- The main loop of `filepath.Clean` folds `cleanStep` over the elements of the
unread input. -/
theorem cleanLoop_spec (rooted : Bool) :
    ∀ (fuel : Nat) (rest : GoString) (k : Nat) (body : List GoString),
      rest.length ≤ fuel → (rooted = true → k = 0) → (∀ s ∈ body, Ordinary s) →
      cleanLoop rooted fuel rest (render rooted (dd k ++ body)) (ddIdx rooted k) =
        render rooted ((elems rest).foldl (cleanStep rooted) (dd k ++ body)) := by
  intro fuel
  induction fuel with
  | zero =>
    intro rest k body hlen _ _
    have : rest = [] := List.length_eq_zero.1 (Nat.le_zero.1 hlen)
    subst this
    simp [cleanLoop, elems_nil]
  | succ fuel ih =>
    intro rest k body hlen hk hb
    cases rest with
    | nil => simp [cleanLoop, elems_nil]
    | cons c rest =>
      have hlen1 : rest.length ≤ fuel := by simpa using hlen
      rw [cleanLoop]
      by_cases h1 : isPathSeparator c = true
      · rw [if_pos h1]
        have : c = 47 := (isPathSeparator_iff c).1 h1
        subst this
        rw [elems_sep_cons]
        exact ih rest k body hlen1 hk hb
      · rw [if_neg h1]
        by_cases h2 : c = 46 ∧ (rest = [] ∨ rest.head?.map isPathSeparator = some true)
        · rw [if_pos h2]
          obtain ⟨hc, h2⟩ := h2
          subst hc
          rw [elems_dot rest h2]
          exact ih rest k body hlen1 hk hb
        · rw [if_neg h2]
          by_cases h3 : c = 46 ∧ rest.head? = some 46 ∧
              (rest.tail = [] ∨ rest.tail.head?.map isPathSeparator = some true)
          · rw [if_pos h3]
            obtain ⟨hc, h30, h3⟩ := h3
            subst hc
            rw [elems_dotdot rest h30 h3, List.foldl_cons]
            have hlen2 : rest.tail.length ≤ fuel := by
              rw [List.length_tail]; omega
            by_cases hgt : (render rooted (dd k ++ body)).length > ddIdx rooted k
            · rw [if_pos hgt]
              have hne : body ≠ [] := (render_length_gt rooted k body hk hb).1 hgt
              obtain ⟨body1, seg, rfl⟩ : ∃ b s, body = b ++ [s] :=
                ⟨body.dropLast, body.getLast hne, (List.dropLast_concat_getLast hne).symm⟩
              have hseg : Ordinary seg := hb seg (by simp)
              have hb1 : ∀ s ∈ body1, Ordinary s := fun s hs => hb s (by simp [hs])
              have hbt : backtrack (render rooted (dd k ++ (body1 ++ [seg]))) (ddIdx rooted k) =
                  render rooted (dd k ++ body1) := by
                rw [← List.append_assoc, render_snoc]
                by_cases hst : dd k ++ body1 = []
                · rw [if_pos hst, hst]
                  have hk0 : dd k = [] := (List.append_eq_nil.1 hst).1
                  cases rooted with
                  | true =>
                    have := backtrack_nosep [47] seg hseg.1 hseg.2.1
                    simpa [render, stringsJoin, ddIdx] using this
                  | false =>
                    have := backtrack_nosep [] seg hseg.1 hseg.2.1
                    simpa [render, stringsJoin, ddIdx, hk0] using this
                · rw [if_neg hst, List.append_assoc]
                  apply backtrack_sep _ _ _ _ hseg.2.1
                  cases rooted with
                  | true => simp [ddIdx, render]
                  | false =>
                    simp only [ddIdx, render, Bool.false_eq_true, if_false, List.nil_append]
                    rw [stringsJoin_append]
                    simp only [List.length_append]
                    omega
              rw [hbt, ← List.append_assoc, cleanStep_pop _ _ _ hseg.2.2.2]
              exact ih rest.tail k body1 hlen2 hk hb1
            · rw [if_neg hgt]
              have hnil : body = [] := by
                by_contra hne
                exact hgt ((render_length_gt rooted k body hk hb).2 hne)
              subst hnil
              simp only [List.append_nil]
              cases rooted with
              | true =>
                have hk0 := hk rfl
                subst hk0
                simp only [Bool.not_true, Bool.false_eq_true, if_false]
                have : dd 0 = [] := rfl
                rw [this, cleanStep_root]
                have := ih rest.tail 0 [] hlen2 hk (by simp)
                simpa [dd] using this
              | false =>
                simp only [Bool.not_false, if_true]
                rw [cleanStep_push]
                have hout : (if (render false (dd k)).length > 0 then render false (dd k) ++ [47]
                    else render false (dd k)) ++ [46, 46] = render false (dd (k + 1)) := by
                  rw [← dd_succ, render_snoc]
                  have hl := render_length_unrooted (dd k)
                    (fun s hs => by rw [mem_dd k s hs]; simp)
                  by_cases hd0 : dd k = []
                  · rw [if_pos hd0, hd0]; simp [render, stringsJoin]
                  · rw [if_neg hd0, if_pos (Nat.pos_of_ne_zero (hl.2 hd0))]
                rw [hout]
                have hidx : (render false (dd (k + 1))).length = ddIdx false (k + 1) := by
                  simp [render, ddIdx]
                rw [hidx]
                have := ih rest.tail (k + 1) [] hlen2 (by simp) (by simp)
                simpa using this
          · rw [if_neg h3]
            have hc : isPathSeparator c = false := by simpa using h1
            have hreal := real_takeWhile c rest hc h2 h3
            rw [elems_real c rest hc h2 h3, List.foldl_cons,
              cleanStep_real _ _ _ hreal.2.2.2]
            have hne := dd_body_ne_nil k body hb
            have hout : (if (rooted = true ∧ (render rooted (dd k ++ body)).length ≠ 1) ∨
                ((!rooted) = true ∧ (render rooted (dd k ++ body)).length ≠ 0)
                then render rooted (dd k ++ body) ++ [47] else render rooted (dd k ++ body)) ++
                (c :: rest).takeWhile (fun b => !isPathSeparator b) =
                render rooted (dd k ++ (body ++
                  [(c :: rest).takeWhile (fun b => !isPathSeparator b)])) := by
              rw [← List.append_assoc, render_snoc]
              congr 1
              cases rooted with
              | true =>
                have hl := render_length_rooted (dd k ++ body) hne
                by_cases hst : dd k ++ body = []
                · rw [if_pos hst, if_neg]
                  · rw [hst]
                  · simp [hst, render, stringsJoin]
                · rw [if_neg hst, if_pos]
                  left; exact ⟨rfl, hl.2 hst⟩
              | false =>
                have hl := render_length_unrooted (dd k ++ body) hne
                by_cases hst : dd k ++ body = []
                · rw [if_pos hst, if_neg]
                  · rw [hst]
                  · simp [hst, render, stringsJoin]
                · rw [if_neg hst, if_pos]
                  right; exact ⟨rfl, hl.2 hst⟩
            dsimp only
            rw [hout, ← List.append_assoc]
            have hdl : ((c :: rest).dropWhile (fun b => !isPathSeparator b)).length ≤ fuel := by
              have : (c :: rest).dropWhile (fun b => !isPathSeparator b) =
                  rest.dropWhile (fun b => !isPathSeparator b) := by
                simp [List.dropWhile_cons, hc]
              rw [this]
              exact Nat.le_trans (length_dropWhile_le _ _) hlen1
            have := ih _ k (body ++ [(c :: rest).takeWhile (fun b => !isPathSeparator b)]) hdl hk
              (by
                intro s hs
                rcases List.mem_append.1 hs with h | h
                · exact hb s h
                · simp at h; rw [h]; exact hreal)
            rw [← List.append_assoc] at this
            exact this

/-- What `filepath.Clean` computes, in terms of path elements. -/
theorem Clean_spec (p : GoString) (hp : p ≠ []) :
    Clean p = renderD (IsAbs p) (cleanElems (IsAbs p) p) := by
  cases p with
  | nil => exact absurd rfl hp
  | cons c rest =>
    unfold Clean renderD cleanElems
    simp only [IsAbs]
    by_cases hc : isPathSeparator c = true
    · have h47 : c = 47 := (isPathSeparator_iff c).1 hc
      subst h47
      have := cleanLoop_spec true (List.length (47 :: rest)) rest 0 [] (by simp) (by simp)
        (by simp)
      simp only [dd, List.replicate_zero, List.nil_append, ddIdx, if_true] at this
      have hr : render true [] = [47] := by simp [render, stringsJoin]
      rw [hr] at this
      simp only [hc, if_true, this, elems_sep_cons, List.length_eq_zero]
    · have hcf : isPathSeparator c = false := by simpa using hc
      have := cleanLoop_spec false (List.length (c :: rest)) (c :: rest) 0 [] (by simp) (by simp)
        (by simp)
      simp only [dd, List.replicate_zero, List.nil_append, ddIdx, Bool.false_eq_true,
        if_false] at this
      have hr : render false [] = [] := by simp [render, stringsJoin]
      have hj : stringsJoin ([] : List GoString) [47] = [] := rfl
      rw [hr, hj, List.length_nil] at this
      simp only [hcf, Bool.false_eq_true, if_false, this, List.length_eq_zero]

/-! ### Cleaned paths -/

theorem Ordinary.kept {seg : GoString} (h : Ordinary seg) : Kept seg := ⟨h.1, h.2.1, h.2.2.1⟩

theorem kept_dotdot : Kept [46, 46] := by
  refine ⟨by simp, by decide, by decide⟩

theorem mem_splitSep_no_sep (p : GoString) : ∀ s ∈ splitSep p, 47 ∉ s := by
  induction p with
  | nil => intro s hs; simp [splitSep] at hs; subst hs; simp
  | cons c p ih =>
    intro s hs
    by_cases hc : c = 47
    · subst hc
      rw [splitSep_sep_cons] at hs
      rcases List.mem_cons.1 hs with h | h
      · subst h; simp
      · exact ih s h
    · rw [splitSep_cons_of_ne _ _ hc] at hs
      have hne := splitSep_ne_nil p
      cases hsp : splitSep p with
      | nil => exact absurd hsp hne
      | cons x t =>
        rw [hsp] at hs ih
        simp only [List.headD_cons, List.tail_cons, List.mem_cons] at hs
        rcases hs with h | h
        · subst h
          have := ih x (by simp)
          simp only [List.mem_cons, not_or]
          exact ⟨fun e => hc e.symm, this⟩
        · exact ih s (by simp [h])

theorem mem_elems {p s : GoString} : s ∈ elems p ↔ s ∈ splitSep p ∧ s ≠ [] ∧ s ≠ [46] := by
  simp [elems]

theorem kept_of_mem_elems {p s : GoString} (h : s ∈ elems p) : Kept s := by
  have := mem_elems.1 h
  exact ⟨this.2.1, mem_splitSep_no_sep p s this.1, this.2.2⟩

theorem NF_nil (rooted : Bool) : NF rooted [] := ⟨0, [], rfl, fun _ => rfl, by simp⟩

theorem NF_kept {rooted : Bool} {st : List GoString} (h : NF rooted st) : ∀ s ∈ st, Kept s := by
  obtain ⟨k, body, rfl, _, hb⟩ := h
  intro s hs
  rcases List.mem_append.1 hs with h1 | h1
  · rw [mem_dd k s h1]; exact kept_dotdot
  · exact (hb s h1).kept

theorem NF_of_real (rooted : Bool) (st : List GoString) (h : ∀ s ∈ st, Ordinary s) : NF rooted st :=
  ⟨0, st, rfl, fun _ => rfl, h⟩

theorem NF_append_real {rooted : Bool} {st segs : List GoString} (h : NF rooted st)
    (hs : ∀ s ∈ segs, Ordinary s) : NF rooted (st ++ segs) := by
  obtain ⟨k, body, rfl, hk, hb⟩ := h
  refine ⟨k, body ++ segs, by simp, hk, ?_⟩
  intro s hmem
  rcases List.mem_append.1 hmem with h1 | h1
  · exact hb s h1
  · exact hs s h1

theorem NF_step {rooted : Bool} {st : List GoString} {seg : GoString} (h : NF rooted st)
    (hseg : Kept seg) : NF rooted (cleanStep rooted st seg) := by
  by_cases hdd : seg = [46, 46]
  · subst hdd
    obtain ⟨k, body, rfl, hk, hb⟩ := h
    by_cases hne : body = []
    · subst hne
      rw [List.append_nil]
      cases rooted with
      | true =>
        have := hk rfl
        subst this
        have : dd 0 = [] := rfl
        rw [this, cleanStep_root]
        exact NF_nil true
      | false =>
        rw [cleanStep_push]
        exact ⟨k + 1, [], by simp, by simp, by simp⟩
    · obtain ⟨body1, x, rfl⟩ : ∃ b s, body = b ++ [s] :=
        ⟨body.dropLast, body.getLast hne, (List.dropLast_concat_getLast hne).symm⟩
      rw [← List.append_assoc, cleanStep_pop _ _ _ (hb x (by simp)).2.2.2]
      exact ⟨k, body1, rfl, hk, fun s hs => hb s (by simp [hs])⟩
  · rw [cleanStep_real _ _ _ hdd]
    exact NF_append_real h (by
      intro s hs
      simp at hs; subst hs
      exact ⟨hseg.1, hseg.2.1, hseg.2.2, hdd⟩)

theorem NF_foldl {rooted : Bool} (segs : List GoString) :
    ∀ {st : List GoString}, NF rooted st → (∀ s ∈ segs, Kept s) →
      NF rooted (segs.foldl (cleanStep rooted) st) := by
  induction segs with
  | nil => intro st h _; exact h
  | cons x segs ih =>
    intro st h hs
    rw [List.foldl_cons]
    exact ih (NF_step h (hs x (by simp))) (fun s hmem => hs s (by simp [hmem]))

theorem NF_cleanElems (rooted : Bool) (p : GoString) : NF rooted (cleanElems rooted p) :=
  NF_foldl _ (NF_nil rooted) (fun _ h => kept_of_mem_elems h)

theorem foldl_real (rooted : Bool) (segs : List GoString) :
    ∀ (st : List GoString), (∀ s ∈ segs, s ≠ [46, 46]) →
      segs.foldl (cleanStep rooted) st = st ++ segs := by
  induction segs with
  | nil => intro st _; simp
  | cons x segs ih =>
    intro st hs
    rw [List.foldl_cons, cleanStep_real _ _ _ (hs x (by simp)),
      ih _ (fun s hmem => hs s (by simp [hmem]))]
    simp

theorem foldl_dd (k : Nat) : ∀ j, (dd k).foldl (cleanStep false) (dd j) = dd (j + k) := by
  induction k with
  | zero => intro j; simp [dd]
  | succ k ih =>
    intro j
    have : dd (k + 1) = [46, 46] :: dd k := by simp [dd, List.replicate_succ]
    rw [this, List.foldl_cons, cleanStep_push, ih]
    congr 1; omega

theorem foldl_NF {rooted : Bool} {st : List GoString} (h : NF rooted st) :
    st.foldl (cleanStep rooted) [] = st := by
  obtain ⟨k, body, rfl, hk, hb⟩ := h
  rw [List.foldl_append]
  cases rooted with
  | true =>
    have := hk rfl
    subst this
    have : dd 0 = [] := rfl
    rw [this, List.foldl_nil, foldl_real _ _ _ (fun s hs => (hb s hs).2.2.2)]
  | false =>
    have : ([] : List GoString) = dd 0 := rfl
    rw [this, foldl_dd, foldl_real _ _ _ (fun s hs => (hb s hs).2.2.2)]
    simp

theorem elems_stringsJoin (st : List GoString) (h : ∀ s ∈ st, Kept s) :
    elems (stringsJoin st [47]) = st := by
  induction st with
  | nil => simp [stringsJoin, elems_nil]
  | cons a t ih =>
    have ha := h a (by simp)
    rw [stringsJoin_cons]
    by_cases ht : t = []
    · subst ht
      simp only [if_true, List.append_nil]
      exact elems_of_seg a ha.2.1 ha.1 ha.2.2
    · simp only [ht, if_false, List.singleton_append]
      rw [elems_seg_sep a _ ha.2.1 ha.1 ha.2.2, ih (fun s hs => h s (by simp [hs]))]

theorem elems_render (rooted : Bool) (st : List GoString) (h : ∀ s ∈ st, Kept s) :
    elems (render rooted st) = st := by
  cases rooted with
  | true =>
    simp only [render, if_true, List.singleton_append]
    rw [elems_sep_cons, elems_stringsJoin st h]
  | false =>
    simp only [render, Bool.false_eq_true, if_false, List.nil_append]
    exact elems_stringsJoin st h

theorem render_eq_nil (rooted : Bool) (st : List GoString) (h : ∀ s ∈ st, Kept s) :
    render rooted st = [] ↔ rooted = false ∧ st = [] := by
  have hne := stringsJoin_eq_nil st [47] (fun s hs => (h s hs).1)
  cases rooted with
  | true => simp [render]
  | false => simp [render, hne]

theorem elems_renderD (rooted : Bool) (st : List GoString) (h : ∀ s ∈ st, Kept s) :
    elems (renderD rooted st) = st := by
  unfold renderD
  by_cases hn : render rooted st = []
  · rw [if_pos hn]
    rw [((render_eq_nil rooted st h).1 hn).2]
    simp [elems, splitSep]
  · rw [if_neg hn]; exact elems_render rooted st h

theorem IsAbs_render (rooted : Bool) (st : List GoString) (h : ∀ s ∈ st, Kept s) :
    IsAbs (render rooted st) = rooted := by
  cases rooted with
  | true => simp [render, IsAbs, isPathSeparator]
  | false =>
    simp only [render, Bool.false_eq_true, if_false, List.nil_append]
    cases st with
    | nil => simp [stringsJoin, IsAbs]
    | cons a t =>
      have ha := h a (by simp)
      rw [stringsJoin_cons]
      cases a with
      | nil => exact absurd rfl ha.1
      | cons c a =>
        have : c ≠ 47 := fun e => ha.2.1 (by simp [e])
        simp [IsAbs, isPathSeparator, this]

theorem IsAbs_renderD (rooted : Bool) (st : List GoString) (h : ∀ s ∈ st, Kept s) :
    IsAbs (renderD rooted st) = rooted := by
  unfold renderD
  by_cases hn : render rooted st = []
  · rw [if_pos hn, ((render_eq_nil rooted st h).1 hn).1]
    simp [IsAbs, isPathSeparator]
  · rw [if_neg hn]; exact IsAbs_render rooted st h

theorem IsAbs_append (a b : GoString) (h : a ≠ []) : IsAbs (a ++ b) = IsAbs a := by
  cases a with
  | nil => exact absurd rfl h
  | cons c a => rfl

theorem renderD_ne_nil (rooted : Bool) (st : List GoString) : renderD rooted st ≠ [] := by
  unfold renderD
  by_cases hn : render rooted st = []
  · rw [if_pos hn]; simp
  · rw [if_neg hn]; exact hn

theorem Clean_ne_nil (p : GoString) : Clean p ≠ [] := by
  by_cases hp : p = []
  · subst hp; simp [Clean]
  · rw [Clean_spec p hp]; exact renderD_ne_nil _ _

theorem Clean_renderD {rooted : Bool} {st : List GoString} (h : NF rooted st) :
    Clean (renderD rooted st) = renderD rooted st := by
  have hk := NF_kept h
  rw [Clean_spec _ (renderD_ne_nil _ _), IsAbs_renderD _ _ hk]
  unfold cleanElems
  rw [elems_renderD _ _ hk, foldl_NF h]

theorem Clean_idem (p : GoString) : Clean (Clean p) = Clean p := by
  by_cases hp : p = []
  · subst hp; decide
  · rw [Clean_spec p hp]
    exact Clean_renderD (NF_cleanElems _ _)

theorem Join_pair (a b : GoString) (ha : a ≠ []) :
    Join [a, b] = renderD (IsAbs a)
      ((elems b).foldl (cleanStep (IsAbs a)) (cleanElems (IsAbs a) a)) := by
  have hj : stringsJoin [a, b] [47] = a ++ 47 :: b := by simp [stringsJoin]
  rw [Join, if_pos ha, hj, Clean_spec _ (by simp [ha]), IsAbs_append _ _ ha]
  unfold cleanElems
  rw [elems_append_sep, List.foldl_append]

theorem Join_nil_left (b : GoString) : Join [[], b] = if b = [] then [] else Clean b := by
  by_cases hb : b = []
  · subst hb; simp [Join]
  · simp [Join, hb, stringsJoin]

/-! ### Containment -/

theorem within_isPrefixOf {c p : GoString} (h : Within c p) : c <+: p := by
  rcases h with h | ⟨segs, _, _, h⟩
  · rw [h]
  · rw [h]
    by_cases hc : c = [47]
    · rw [if_pos hc]; exact List.prefix_append _ _
    · rw [if_neg hc, List.append_assoc]; exact List.prefix_append _ _

theorem render_append (rooted : Bool) (R B : List GoString) (hR : ∀ s ∈ R, Kept s)
    (hne : rooted = true ∨ R ≠ []) (hB0 : B ≠ []) (hB : ∀ s ∈ B, Kept s) :
    renderD rooted (R ++ B) =
      (if renderD rooted R = [47] then renderD rooted R else renderD rooted R ++ [47]) ++
        stringsJoin B [47] := by
  have hkRB : ∀ s ∈ R ++ B, Kept s := by
    intro s hs
    rcases List.mem_append.1 hs with h | h
    · exact hR s h
    · exact hB s h
  have h1 : render rooted R ≠ [] := by
    intro h
    have := (render_eq_nil rooted R hR).1 h
    rcases hne with h2 | h2
    · rw [this.1] at h2; exact absurd h2 (by decide)
    · exact h2 this.2
  have h2 : render rooted (R ++ B) ≠ [] := by
    intro h
    have := (render_eq_nil rooted (R ++ B) hkRB).1 h
    exact hB0 (List.append_eq_nil.1 this.2).2
  unfold renderD
  rw [if_neg h1, if_neg h2]
  by_cases hR0 : R = []
  · subst hR0
    rcases hne with h3 | h3
    · subst h3
      simp [render, stringsJoin]
    · exact absurd rfl h3
  · have hc : render rooted R ≠ [47] := by
      cases rooted with
      | true =>
        simp only [render, if_true, List.singleton_append, ne_eq, List.cons.injEq, true_and]
        rw [stringsJoin_eq_nil R [47] (fun s hs => (hR s hs).1)]
        exact hR0
      | false =>
        intro h
        have := IsAbs_render false R hR
        rw [h] at this
        simp [IsAbs, isPathSeparator] at this
    rw [if_neg hc]
    unfold render
    rw [stringsJoin_append]
    simp [hR0, hB0]

theorem within_render {rooted : Bool} {R B : List GoString} (hR : NF rooted R)
    (hne : rooted = true ∨ R ≠ []) (hB : ∀ s ∈ B, Ordinary s) :
    Within (renderD rooted R) (renderD rooted (R ++ B)) := by
  by_cases hB0 : B = []
  · subst hB0; left; simp
  · right
    exact ⟨B, hB0, hB,
      render_append rooted R B (NF_kept hR) hne hB0 (fun s hs => (hB s hs).kept)⟩

theorem climbsAbove_cons (d : Nat) (seg : GoString) (rest : List GoString) :
    climbsAbove d (seg :: rest) =
      if seg = [] ∨ seg = [46] then climbsAbove d rest
      else if seg = [46, 46] then
        match d with
        | 0 => true
        | d + 1 => climbsAbove d rest
      else climbsAbove (d + 1) rest := by
  cases d <;> simp [climbsAbove]

theorem foldl_stays (segs : List GoString) :
    ∀ (d : Nat) (body : List GoString), (∀ s ∈ segs, 47 ∉ s) → body.length = d →
      (∀ s ∈ body, Ordinary s) → climbsAbove d segs = false →
      ∃ body1, (∀ s ∈ body1, Ordinary s) ∧ ∀ (rooted : Bool) (st : List GoString),
        (segs.filter (fun s => decide (s ≠ [] ∧ s ≠ [46]))).foldl (cleanStep rooted)
          (st ++ body) = st ++ body1 := by
  induction segs with
  | nil => intro d body _ _ hb _; exact ⟨body, hb, fun _ _ => rfl⟩
  | cons seg segs ih =>
    intro d body hsep hlen hb hcl
    have hsep1 : ∀ s ∈ segs, 47 ∉ s := fun s hs => hsep s (by simp [hs])
    rw [climbsAbove_cons] at hcl
    by_cases hskip : seg = [] ∨ seg = [46]
    · rw [if_pos hskip] at hcl
      have : List.filter (fun s => decide (s ≠ [] ∧ s ≠ [46])) (seg :: segs) =
          List.filter (fun s => decide (s ≠ [] ∧ s ≠ [46])) segs := by
        rw [List.filter_cons_of_neg]
        rcases hskip with h | h <;> simp [h]
      rw [this]
      exact ih d body hsep1 hlen hb hcl
    · rw [if_neg hskip] at hcl
      have : List.filter (fun s => decide (s ≠ [] ∧ s ≠ [46])) (seg :: segs) =
          seg :: List.filter (fun s => decide (s ≠ [] ∧ s ≠ [46])) segs := by
        rw [List.filter_cons_of_pos]
        simp only [not_or] at hskip
        simp [hskip.1, hskip.2]
      rw [this]
      simp only [not_or] at hskip
      by_cases hdd : seg = [46, 46]
      · rw [if_pos hdd] at hcl
        subst hdd
        cases d with
        | zero => simp at hcl
        | succ d =>
          simp only at hcl
          have hne : body ≠ [] := by
            intro h; rw [h] at hlen; simp at hlen
          obtain ⟨body0, x, rfl⟩ : ∃ b s, body = b ++ [s] :=
            ⟨body.dropLast, body.getLast hne, (List.dropLast_concat_getLast hne).symm⟩
          obtain ⟨body1, hb1, hfold⟩ := ih d body0 hsep1 (by simpa using hlen)
            (fun s hs => hb s (by simp [hs])) hcl
          refine ⟨body1, hb1, fun rooted st => ?_⟩
          rw [List.foldl_cons, ← List.append_assoc, cleanStep_pop _ _ _ (hb x (by simp)).2.2.2]
          exact hfold rooted st
      · rw [if_neg hdd] at hcl
        obtain ⟨body1, hb1, hfold⟩ := ih (d + 1) (body ++ [seg]) hsep1 (by simp [hlen])
          (by
            intro s hs
            rcases List.mem_append.1 hs with h | h
            · exact hb s h
            · simp at h; subst h
              exact ⟨hskip.1, hsep s (by simp), hskip.2, hdd⟩) hcl
        refine ⟨body1, hb1, fun rooted st => ?_⟩
        rw [List.foldl_cons, cleanStep_real _ _ _ hdd, List.append_assoc]
        exact hfold rooted st

theorem climbsAbove_filter (segs : List GoString) :
    ∀ d, climbsAbove d (segs.filter (fun s => decide (s ≠ [] ∧ s ≠ [46]))) =
      climbsAbove d segs := by
  induction segs with
  | nil => intro d; rfl
  | cons seg segs ih =>
    intro d
    by_cases hskip : seg = [] ∨ seg = [46]
    · have : List.filter (fun s => decide (s ≠ [] ∧ s ≠ [46])) (seg :: segs) =
          List.filter (fun s => decide (s ≠ [] ∧ s ≠ [46])) segs := by
        rw [List.filter_cons_of_neg]
        rcases hskip with h | h <;> simp [h]
      rw [this, climbsAbove_cons d seg segs, if_pos hskip]
      exact ih d
    · have : List.filter (fun s => decide (s ≠ [] ∧ s ≠ [46])) (seg :: segs) =
          seg :: List.filter (fun s => decide (s ≠ [] ∧ s ≠ [46])) segs := by
        rw [List.filter_cons_of_pos]
        simp only [not_or] at hskip
        simp [hskip.1, hskip.2]
      rw [this, climbsAbove_cons, climbsAbove_cons, if_neg hskip, if_neg hskip]
      by_cases hdd : seg = [46, 46]
      · rw [if_pos hdd, if_pos hdd]
        cases d with
        | zero => rfl
        | succ d => exact ih d
      · rw [if_neg hdd, if_neg hdd]
        exact ih (d + 1)

theorem climbsAbove_append (xs ys : List GoString) :
    ∀ d, climbsAbove d (xs ++ ys) = false → climbsAbove d xs = false := by
  induction xs with
  | nil => intro d _; rfl
  | cons seg xs ih =>
    intro d h
    rw [List.cons_append, climbsAbove_cons] at h
    rw [climbsAbove_cons]
    by_cases hskip : seg = [] ∨ seg = [46]
    · rw [if_pos hskip] at h ⊢
      exact ih d h
    · rw [if_neg hskip] at h ⊢
      by_cases hdd : seg = [46, 46]
      · rw [if_pos hdd] at h ⊢
        cases d with
        | zero => simp at h
        | succ d => exact ih d h
      · rw [if_neg hdd] at h ⊢
        exact ih (d + 1) h

theorem real_of_mem_elems {p s : GoString} (hdd : [46, 46] ∉ splitSep p) (h : s ∈ elems p) :
    Ordinary s := by
  have hk := kept_of_mem_elems h
  refine ⟨hk.1, hk.2.1, hk.2.2, ?_⟩
  intro e
  subst e
  exact hdd (mem_elems.1 h).1

/-! ### makeDevicePath: claims C1 and C10 -/

theorem ne_nil_of_IsAbs {p : GoString} (h : IsAbs p = true) : p ≠ [] := by
  intro e; subst e; simp [IsAbs] at h

theorem devicePath_eq (root name : GoString) (hroot : root ≠ []) :
    makeDevicePath root name = renderD (IsAbs root)
      ((elems name).foldl (cleanStep (IsAbs root)) (cleanElems (IsAbs root) root)) :=
  Join_pair root name hroot

/-- C1, as amended: `makeDevicePath` rejects nothing, it returns
`filepath.Join(root, name)`; for every non-empty data root whose cleaned form is
not `.` and every resource name whose `..` segments never climb above the root
(read left to right, each `..` cancels an earlier ordinary segment of the name),
the returned path is the cleaned root or lies below it. -/
theorem devicePath_contained_of_not_climbing (root name : GoString) (hroot : root ≠ [])
    (hdot : Clean root ≠ [46]) (hname : climbsAbove 0 (splitSep name) = false) :
    Within (Clean root) (makeDevicePath root name) := by
  have hNF := NF_cleanElems (IsAbs root) root
  obtain ⟨body1, hb1, hfold⟩ := foldl_stays (splitSep name) 0 []
    (mem_splitSep_no_sep name) rfl (by simp) hname
  have hfold1 := hfold (IsAbs root) (cleanElems (IsAbs root) root)
  rw [List.append_nil] at hfold1
  rw [devicePath_eq root name hroot, Clean_spec root hroot]
  unfold elems
  rw [hfold1]
  apply within_render hNF _ hb1
  by_cases hr : IsAbs root = true
  · exact Or.inl hr
  · right
    intro h0
    apply hdot
    rw [Clean_spec root hroot, h0]
    have : IsAbs root = false := by simpa using hr
    rw [this]
    decide

/-- Witness of C1 as amended: the default root `data/` and the name
`/foo/../bar/baz.txt`. -/
theorem devicePath_contained_witness :
    bytes "data/" ≠ [] ∧ Clean (bytes "data/") ≠ [46] ∧
      climbsAbove 0 (splitSep (bytes "/foo/../bar/baz.txt")) = false ∧
      Within (Clean (bytes "data/")) (makeDevicePath (bytes "data/") (bytes "/foo/../bar/baz.txt")) :=
  ⟨by decide, by decide, by decide,
    devicePath_contained_of_not_climbing _ _ (by decide) (by decide) (by decide)⟩

/-- Counterexample to C1 as stated: under the root `/data` the name
`/../etc/passwd` is not rejected, it resolves to `/etc/passwd`, which is neither
the root nor below it. -/
theorem devicePath_escapes :
    makeDevicePath (bytes "/data") (bytes "/../etc/passwd") = bytes "/etc/passwd" ∧
      ¬ Within (Clean (bytes "/data"))
        (makeDevicePath (bytes "/data") (bytes "/../etc/passwd")) :=
  ⟨by decide, fun h => absurd (within_isPrefixOf h) (by decide)⟩

/-- C10: for every absolute data root and every resource name none of whose
slash-separated segments is `..` (leading, trailing and repeated slashes and `.`
segments allowed), `makeDevicePath(root)(name)` equals `filepath.Clean(root)` or
is a strict descendant of it: that path, a separator (the slash of the root
directory itself when the cleaned root is `/`) and one or more ordinary
segments; and the result is itself a cleaned path. -/
theorem devicePath_contained_of_no_dotdot (root name : GoString) (hroot : IsAbs root = true)
    (hname : [46, 46] ∉ splitSep name) :
    Within (Clean root) (makeDevicePath root name) ∧
      Clean (makeDevicePath root name) = makeDevicePath root name := by
  have hne := ne_nil_of_IsAbs hroot
  have hNF := NF_cleanElems (IsAbs root) root
  have hreal : ∀ s ∈ elems name, Ordinary s := fun s hs => real_of_mem_elems hname hs
  rw [devicePath_eq root name hne, Clean_spec root hne,
    foldl_real _ _ _ (fun s hs => (hreal s hs).2.2.2)]
  exact ⟨within_render hNF (Or.inl hroot) hreal, Clean_renderD (NF_append_real hNF hreal)⟩

/-- Witness of C10: root `/data/`, name `//foo/./bar/`. -/
theorem devicePath_contained_of_no_dotdot_witness :
    IsAbs (bytes "/data/") = true ∧ [46, 46] ∉ splitSep (bytes "//foo/./bar/") ∧
      Within (Clean (bytes "/data/")) (makeDevicePath (bytes "/data/") (bytes "//foo/./bar/")) ∧
      Clean (makeDevicePath (bytes "/data/") (bytes "//foo/./bar/")) =
        makeDevicePath (bytes "/data/") (bytes "//foo/./bar/") :=
  ⟨by decide, by decide, devicePath_contained_of_no_dotdot _ _ (by decide) (by decide)⟩

/-! ### `filepath.Dir` and the rename target -/

theorem dirEnd_eq (path : GoString) (t : Nat) (ht : t = 0 ∨ path[t - 1]?.getD 0 = 47) :
    ∀ n, (∀ i, t ≤ i → i < t + n → path[i]?.getD 0 ≠ 47) → dirEnd path (t + n) = t := by
  intro n
  induction n with
  | zero =>
    intro _
    cases t with
    | zero => simp [dirEnd]
    | succ w =>
      rcases ht with ht | ht
      · omega
      · simp only [Nat.add_sub_cancel] at ht
        simp [dirEnd, isPathSeparator, ht]
  | succ n ih =>
    intro h
    have h1 : path[t + n]?.getD 0 ≠ 47 := h _ (by omega) (by omega)
    have : t + (n + 1) = (t + n) + 1 := by omega
    rw [this, dirEnd]
    have hcond : (!isPathSeparator (path.getD (t + n) 0)) = true := by
      simp [isPathSeparator, h1]
    rw [if_pos hcond]
    exact ih (fun i hi1 hi2 => h i hi1 (by omega))

theorem Dir_sep (a l : GoString) (hl : 47 ∉ l) : Dir (a ++ 47 :: l) = Clean (a ++ [47]) := by
  unfold Dir
  have hlen : (a ++ 47 :: l).length = (a.length + 1) + l.length := by simp; omega
  rw [hlen, dirEnd_eq _ (a.length + 1)
    (Or.inr (by rw [Nat.add_sub_cancel, List.getElem?_append_right (Nat.le_refl _)]; simp))]
  · have : a ++ 47 :: l = (a ++ [47]) ++ l := by simp
    rw [this, List.take_left' (by simp)]
  · intro i hi1 hi2 h47
    rw [List.getElem?_append_right (by omega)] at h47
    obtain ⟨j, hj⟩ : ∃ j, i - a.length = j + 1 := ⟨i - a.length - 1, by omega⟩
    rw [hj, List.getElem?_cons_succ] at h47
    cases hx : l[j]? with
    | none => rw [hx] at h47; simp at h47
    | some x =>
      rw [hx] at h47
      simp at h47
      subst h47
      exact hl (List.getElem?_mem hx)

theorem Dir_nosep (l : GoString) (hl : 47 ∉ l) : Dir l = [46] := by
  unfold Dir
  have := dirEnd_eq l 0 (Or.inl rfl) l.length (by
    intro i _ _ h47
    cases hx : l[i]? with
    | none => rw [hx] at h47; simp at h47
    | some x =>
      rw [hx] at h47
      simp at h47
      subst h47
      exact hl (List.getElem?_mem hx))
  rw [Nat.zero_add] at this
  rw [this]
  rfl

theorem split_last (n : GoString) : ∃ l, 47 ∉ l ∧ (n = l ∨ ∃ a, n = a ++ 47 :: l) := by
  induction n with
  | nil => exact ⟨[], by simp, Or.inl rfl⟩
  | cons c s ih =>
    obtain ⟨l, hl, h⟩ := ih
    rcases h with h | ⟨a, h⟩
    · by_cases hc : c = 47
      · subst hc
        exact ⟨l, hl, Or.inr ⟨[], by simp [h]⟩⟩
      · refine ⟨c :: l, ?_, Or.inl (by rw [h])⟩
        simp only [List.mem_cons, not_or]
        exact ⟨fun e => hc e.symm, hl⟩
    · exact ⟨l, hl, Or.inr ⟨c :: a, by simp [h]⟩⟩

theorem lastSeg_nosep (l : GoString) (hl : 47 ∉ l) : lastSeg l = l := by
  simp [lastSeg, splitSep_of_not_mem l hl]

theorem lastSeg_sep (a l : GoString) (hl : 47 ∉ l) : lastSeg (a ++ 47 :: l) = l := by
  simp [lastSeg, splitSep_append_sep, splitSep_of_not_mem l hl]

theorem IsAbs_nosep (l : GoString) (hl : 47 ∉ l) : IsAbs l = false := by
  cases l with
  | nil => rfl
  | cons c l =>
    have : c ≠ 47 := fun e => hl (by simp [e])
    simp [IsAbs, isPathSeparator, this]

theorem IsAbs_sep (a l l1 : GoString) : IsAbs (a ++ 47 :: l) = IsAbs (a ++ 47 :: l1) := by
  cases a with
  | nil => rfl
  | cons c a => rfl

/-- The parent directory of a name whose last segment is an ordinary element,
in terms of path elements. -/
theorem Dir_eq (n : GoString) (h1 : lastSeg n ≠ []) (h2 : lastSeg n ≠ [46]) :
    ∃ E, elems n = E ++ [lastSeg n] ∧ 47 ∉ lastSeg n ∧
      Dir n = renderD (IsAbs n) (E.foldl (cleanStep (IsAbs n)) []) := by
  obtain ⟨l, hl, h⟩ := split_last n
  rcases h with h | ⟨a, h⟩
  · subst h
    rw [lastSeg_nosep n hl] at h1 h2 ⊢
    refine ⟨[], ?_, hl, ?_⟩
    · simpa using elems_of_seg n hl h1 h2
    · rw [Dir_nosep n hl, IsAbs_nosep n hl]; rfl
  · subst h
    rw [lastSeg_sep a l hl] at h1 h2 ⊢
    refine ⟨elems a, ?_, hl, ?_⟩
    · rw [elems_append_sep, elems_of_seg l hl h1 h2]
    · rw [Dir_sep a l hl, Clean_spec _ (by simp), IsAbs_sep a l []]
      unfold cleanElems
      rw [elems_append_sep, elems_nil, List.append_nil]

theorem renderD_snoc (rooted : Bool) (st : List GoString) (b : GoString) (hb : b ≠ []) :
    renderD rooted (st ++ [b]) = render rooted (st ++ [b]) := by
  unfold renderD
  rw [if_neg]
  rw [render_snoc]
  simp [hb]

theorem Dir_render_snoc {rooted : Bool} {st : List GoString} (h : NF rooted st) {l : GoString}
    (hl : Ordinary l) : Dir (render rooted (st ++ [l])) = renderD rooted st := by
  have hk := NF_kept h
  rw [render_snoc]
  by_cases hst : st = []
  · subst hst
    rw [if_pos rfl]
    cases rooted with
    | true =>
      have : render true [] ++ l = [] ++ 47 :: l := by simp [render, stringsJoin]
      rw [this, Dir_sep [] l hl.2.1]
      decide
    | false =>
      have : render false [] ++ l = l := by simp [render, stringsJoin]
      rw [this, Dir_nosep l hl.2.1]
      decide
  · rw [if_neg hst]
    have hne : render rooted st ≠ [] := by
      intro e
      exact hst ((render_eq_nil rooted st hk).1 e).2
    have : render rooted st ++ [47] ++ l = render rooted st ++ 47 :: l := by simp
    rw [this, Dir_sep _ l hl.2.1, Clean_spec _ (by simp), IsAbs_append _ _ hne,
      IsAbs_render _ _ hk]
    unfold cleanElems
    rw [elems_append_sep, elems_nil, List.append_nil, elems_render _ _ hk, foldl_NF h]

theorem Join_renderD_seg {rooted : Bool} {st : List GoString} (h : NF rooted st) {b : GoString}
    (hb : Ordinary b) : Join [renderD rooted st, b] = render rooted (st ++ [b]) := by
  have hk := NF_kept h
  rw [Join_pair _ _ (renderD_ne_nil _ _), IsAbs_renderD _ _ hk]
  unfold cleanElems
  rw [elems_renderD _ _ hk, foldl_NF h, elems_of_seg b hb.2.1 hb.1 hb.2.2.1, List.foldl_cons,
    List.foldl_nil, cleanStep_real _ _ _ hb.2.2.2, renderD_snoc _ _ _ hb.1]

theorem Clean_cases (p : GoString) : ∃ r st, NF r st ∧ Clean p = renderD r st := by
  by_cases hp : p = []
  · subst hp; exact ⟨false, [], NF_nil false, by decide⟩
  · exact ⟨IsAbs p, cleanElems (IsAbs p) p, NF_cleanElems _ _, Clean_spec p hp⟩

theorem Dir_Join_Dir (x b : GoString) (hb : Ordinary b) : Dir (Join [Dir x, b]) = Dir x := by
  obtain ⟨r, st, hNF, h⟩ := Clean_cases (x.take (dirEnd x x.length))
  have : Dir x = renderD r st := h
  rw [this, Join_renderD_seg hNF hb, Dir_render_snoc hNF hb]

theorem ne_nil_of_lastSeg {n : GoString} (h : lastSeg n ≠ []) : n ≠ [] := by
  intro e; subst e; simp [lastSeg, splitSep] at h

theorem Dir_eq_stays (n : GoString) (hl : Ordinary (lastSeg n))
    (hcl : climbsAbove 0 (splitSep n) = false) :
    ∃ E E1, elems n = E ++ [lastSeg n] ∧ (∀ s ∈ E1, Ordinary s) ∧
      (∀ (r : Bool) (st : List GoString), E.foldl (cleanStep r) st = st ++ E1) ∧
      Dir n = renderD (IsAbs n) E1 := by
  obtain ⟨E, hE, _, hDir⟩ := Dir_eq n hl.1 hl.2.2.1
  have hkE : ∀ s ∈ E, Kept s := fun s hs =>
    kept_of_mem_elems (p := n) (by rw [hE]; simp [hs])
  have hclE : climbsAbove 0 E = false := by
    apply climbsAbove_append E [lastSeg n]
    rw [← hE]
    unfold elems
    rw [climbsAbove_filter]
    exact hcl
  obtain ⟨E1, hE1, hfold⟩ := foldl_stays E 0 [] (fun s hs => (hkE s hs).2.1) rfl (by simp) hclE
  have hfilter : List.filter (fun s => decide (s ≠ [] ∧ s ≠ [46])) E = E := by
    rw [List.filter_eq_self]
    intro s hs
    simp [(hkE s hs).1, (hkE s hs).2.2]
  rw [hfilter] at hfold
  have hfold1 : ∀ (r : Bool) (st : List GoString), E.foldl (cleanStep r) st = st ++ E1 := by
    intro r st
    have := hfold r st
    rwa [List.append_nil] at this
  refine ⟨E, E1, hE, hE1, hfold1, ?_⟩
  rw [hDir, hfold1, List.nil_append]

/-- The device path of the rename target is the sibling of the device path of
the source. -/
theorem devicePath_rename (root n b : GoString) (hb : Ordinary b)
    (hl : Ordinary (lastSeg n)) (hcl : climbsAbove 0 (splitSep n) = false) :
    makeDevicePath root (Join [Dir n, b]) = Join [Dir (makeDevicePath root n), b] := by
  obtain ⟨E, E1, hE, hE1, hfold, hDir⟩ := Dir_eq_stays n hl hcl
  have hn := ne_nil_of_lastSeg hl.1
  have hNFE : ∀ r, NF r E1 := fun r => NF_of_real r E1 hE1
  have hren : Join [Dir n, b] = render (IsAbs n) (E1 ++ [b]) := by
    rw [hDir]; exact Join_renderD_seg (hNFE _) hb
  have hEb : ∀ s ∈ E1 ++ [b], Ordinary s := by
    intro s hs
    rcases List.mem_append.1 hs with h | h
    · exact hE1 s h
    · simp at h; subst h; exact hb
  have hEbk : ∀ s ∈ E1 ++ [b], Kept s := fun s hs => (hEb s hs).kept
  have hfoldn : ∀ (r : Bool) (st : List GoString),
      (elems n).foldl (cleanStep r) st = st ++ E1 ++ [lastSeg n] := by
    intro r st
    rw [hE, List.foldl_append, hfold, List.foldl_cons, List.foldl_nil,
      cleanStep_real _ _ _ hl.2.2.2]
  by_cases hroot : root = []
  · subst hroot
    unfold makeDevicePath
    rw [Join_nil_left, Join_nil_left, if_neg hn, hren]
    have hne : render (IsAbs n) (E1 ++ [b]) ≠ [] := by
      rw [← renderD_snoc _ _ _ hb.1]; exact renderD_ne_nil _ _
    rw [if_neg hne, ← renderD_snoc _ _ _ hb.1, Clean_renderD (NF_of_real _ _ hEb),
      Clean_spec n hn]
    unfold cleanElems
    rw [hfoldn, List.nil_append, renderD_snoc _ _ _ hl.1, Dir_render_snoc (hNFE _) hl,
      Join_renderD_seg (hNFE _) hb, renderD_snoc _ _ _ hb.1]
  · have hNF := NF_cleanElems (IsAbs root) root
    rw [devicePath_eq root _ hroot, devicePath_eq root n hroot, hren,
      elems_render _ _ hEbk, hfoldn,
      foldl_real _ _ _ (fun s hs => (hEb s hs).2.2.2),
      ← List.append_assoc, renderD_snoc _ _ _ hl.1,
      Dir_render_snoc (NF_append_real hNF hE1) hl,
      Join_renderD_seg (NF_append_real hNF hE1) hb, renderD_snoc _ _ _ hb.1]

/-! ### Percent-encoding -/

theorem unhex_upperhex (i : Nat) (h : i < 16) : unhex (upperhex i) = i := by
  unfold unhex upperhex
  split <;> split <;> (try split) <;> (try split) <;> omega

theorem ishex_upperhex (i : Nat) (h : i < 16) : ishex (upperhex i) = true := by
  unfold ishex upperhex
  split <;> simp <;> omega

theorem upperhex_ne_sep (i : Nat) : upperhex i ≠ 47 := by
  unfold upperhex
  split <;> omega

theorem shouldEscape_percent : shouldEscape 37 = true := by decide

theorem shouldEscape_sep : shouldEscape 47 = true := by decide

theorem shouldEscape_dot : shouldEscape 46 = false := by decide

theorem PathEscape_cons (c : Nat) (s : GoString) :
    PathEscape (c :: s) =
      if shouldEscape c then 37 :: upperhex (c / 16) :: upperhex (c % 16) :: PathEscape s
      else c :: PathEscape s := rfl

theorem unescapeCheck_cons_ne (c : Nat) (s : GoString) (h : c ≠ 37) :
    unescapeCheck (c :: s) = unescapeCheck s := by
  rcases s with _ | ⟨a, _ | ⟨b, t⟩⟩ <;> simp [unescapeCheck, h]

theorem unescapeBytes_cons_ne (c : Nat) (s : GoString) (h : c ≠ 37) :
    unescapeBytes (c :: s) = c :: unescapeBytes s := by
  rcases s with _ | ⟨a, _ | ⟨b, t⟩⟩ <;> simp [unescapeBytes, h]

theorem unescapeCheck_PathEscape (s : GoString) (h : ∀ b ∈ s, b < 256) :
    unescapeCheck (PathEscape s) = true := by
  induction s with
  | nil => rfl
  | cons c s ih =>
    have hc : c < 256 := h c (by simp)
    have ih1 := ih (fun b hb => h b (by simp [hb]))
    rw [PathEscape_cons]
    by_cases he : shouldEscape c = true
    · rw [if_pos he]
      simp only [unescapeCheck, if_true]
      rw [ishex_upperhex _ (by omega), ishex_upperhex _ (by omega), ih1]
      rfl
    · rw [if_neg he]
      have : c ≠ 37 := fun e => he (e ▸ shouldEscape_percent)
      rw [unescapeCheck_cons_ne _ _ this]
      exact ih1

theorem unescapeBytes_PathEscape (s : GoString) (h : ∀ b ∈ s, b < 256) :
    unescapeBytes (PathEscape s) = s := by
  induction s with
  | nil => rfl
  | cons c s ih =>
    have hc : c < 256 := h c (by simp)
    have ih1 := ih (fun b hb => h b (by simp [hb]))
    rw [PathEscape_cons]
    by_cases he : shouldEscape c = true
    · rw [if_pos he]
      simp only [unescapeBytes, if_true]
      rw [unhex_upperhex _ (by omega), unhex_upperhex _ (by omega), ih1]
      congr 1
      omega
    · rw [if_neg he]
      have : c ≠ 37 := fun e => he (e ▸ shouldEscape_percent)
      rw [unescapeBytes_cons_ne _ _ this, ih1]

/-- Percent-decoding undoes percent-encoding. -/
theorem PathUnescape_PathEscape (s : GoString) (h : ∀ b ∈ s, b < 256) :
    PathUnescape (PathEscape s) = some s := by
  unfold PathUnescape
  rw [unescapeCheck_PathEscape s h, if_pos rfl, unescapeBytes_PathEscape s h]

theorem PathEscape_no_sep (s : GoString) : 47 ∉ PathEscape s := by
  induction s with
  | nil => simp [PathEscape]
  | cons c s ih =>
    rw [PathEscape_cons]
    by_cases he : shouldEscape c = true
    · rw [if_pos he]
      simp only [List.mem_cons, not_or]
      exact ⟨by decide, fun e => upperhex_ne_sep _ e.symm, fun e => upperhex_ne_sep _ e.symm, ih⟩
    · rw [if_neg he]
      have : c ≠ 47 := fun e => he (e ▸ shouldEscape_sep)
      simp only [List.mem_cons, not_or]
      exact ⟨fun e => this e.symm, ih⟩

theorem PathEscape_eq_nil (s : GoString) : PathEscape s = [] ↔ s = [] := by
  cases s with
  | nil => simp [PathEscape]
  | cons c s =>
    rw [PathEscape_cons]
    by_cases he : shouldEscape c = true
    · rw [if_pos he]; simp
    · rw [if_neg he]; simp

theorem PathEscape_eq_dot (s : GoString) (h : PathEscape s = [46]) : s = [46] := by
  cases s with
  | nil => simp [PathEscape] at h
  | cons c s =>
    rw [PathEscape_cons] at h
    by_cases he : shouldEscape c = true
    · rw [if_pos he] at h; simp at h
    · rw [if_neg he] at h
      simp only [List.cons.injEq] at h
      rw [h.1, (PathEscape_eq_nil s).1 h.2]

theorem PathEscape_eq_dotdot (s : GoString) (h : PathEscape s = [46, 46]) : s = [46, 46] := by
  cases s with
  | nil => simp [PathEscape] at h
  | cons c s =>
    rw [PathEscape_cons] at h
    by_cases he : shouldEscape c = true
    · rw [if_pos he] at h; simp at h
    · rw [if_neg he] at h
      simp only [List.cons.injEq] at h
      rw [h.1, PathEscape_eq_dot s h.2]

/-- An ordinary segment stays an ordinary segment when percent-encoded. -/
theorem Ordinary_PathEscape {s : GoString} (h : Ordinary s) : Ordinary (PathEscape s) :=
  ⟨fun e => h.1 ((PathEscape_eq_nil s).1 e), PathEscape_no_sep s,
    fun e => h.2.2.1 (PathEscape_eq_dot s e), fun e => h.2.2.2 (PathEscape_eq_dotdot s e)⟩

theorem unescapeAll_map_PathEscape (segs : List GoString) (h : ∀ s ∈ segs, ∀ b ∈ s, b < 256) :
    unescapeAll (segs.map PathEscape) = some segs := by
  induction segs with
  | nil => rfl
  | cons a t ih =>
    simp only [List.map_cons, unescapeAll]
    rw [PathUnescape_PathEscape a (h a (by simp)), ih (fun s hs => h s (by simp [hs]))]

theorem foldl_snoc_map {α β : Type} (f : α → β) (xs : List α) :
    ∀ acc : List β, xs.foldl (fun acc x => acc ++ [f x]) acc = acc ++ xs.map f := by
  induction xs with
  | nil => intro acc; simp
  | cons x xs ih => intro acc; rw [List.foldl_cons, ih]; simp

theorem splitSep_stringsJoin (st : List GoString) (hne : st ≠ []) (h : ∀ s ∈ st, 47 ∉ s) :
    splitSep (stringsJoin st [47]) = st := by
  induction st with
  | nil => exact absurd rfl hne
  | cons a t ih =>
    rw [stringsJoin_cons]
    by_cases ht : t = []
    · subst ht
      simp only [if_true, List.append_nil]
      exact splitSep_of_not_mem a (h a (by simp))
    · simp only [ht, if_false, List.singleton_append]
      rw [splitSep_seg_sep a _ (h a (by simp)), ih ht (fun s hs => h s (by simp [hs]))]

theorem Join_real (segs : List GoString) (hne : segs ≠ []) (h : ∀ s ∈ segs, Ordinary s) :
    Join segs = stringsJoin segs [47] := by
  have hk : ∀ s ∈ segs, Kept s := fun s hs => (h s hs).kept
  cases segs with
  | nil => exact absurd rfl hne
  | cons e rest =>
    have he := h e (by simp)
    have hj : stringsJoin (e :: rest) [47] = render false (e :: rest) := by simp [render]
    have hnn : render false (e :: rest) ≠ [] := by
      intro e1
      have := (render_eq_nil false (e :: rest) hk).1 e1
      simp at this
    rw [Join, if_pos he.1, hj, Clean_spec _ hnn, IsAbs_render _ _ hk]
    unfold cleanElems renderD
    rw [elems_render _ _ hk, foldl_real _ _ _ (fun s hs => (h s hs).2.2.2), List.nil_append,
      if_neg hnn]

/-! ### makeResourcePath, handleDirRead and the handlers: claims C2 to C9 -/

theorem Clean_append_sep (p : GoString) (hp : p ≠ []) : Clean (p ++ [47]) = Clean p := by
  rw [Clean_spec _ (by simp), Clean_spec p hp, IsAbs_append _ _ hp]
  unfold cleanElems
  rw [elems_append_sep, elems_nil, List.append_nil]

theorem resourcePath_empty (p : GoString) :
    makeResourcePath p [[]] = if p = [] then [] else Clean p := by
  unfold makeResourcePath
  have h1 : List.foldl (fun escaped part => escaped ++ [PathEscape part]) [] [([] : GoString)] =
      [[]] := rfl
  have h2 : Join [([] : GoString)] = [] := by simp [Join]
  simp only [h1, h2]
  by_cases hp : p = []
  · subst hp; simp [Join]
  · rw [if_neg hp, Join, if_pos hp]
    have : stringsJoin [p, []] [47] = p ++ [47] := by simp [stringsJoin]
    rw [this, Clean_append_sep p hp]

/-- The resource URL of a list of ordinary segments under a clean absolute
prefix: the prefix, the joining slash (the one of the prefix when the prefix is
`/`), and the percent-encoded segments separated by slashes. -/
theorem resourcePath_eq (pfx : GoString) (segs : List GoString) (hclean : Clean pfx = pfx)
    (habs : IsAbs pfx = true) (hne : segs ≠ []) (hsegs : ∀ s ∈ segs, Ordinary s) :
    makeResourcePath pfx segs =
      (if pfx = [47] then pfx else pfx ++ [47]) ++ stringsJoin (segs.map PathEscape) [47] := by
  have hp := ne_nil_of_IsAbs habs
  have hesc : ∀ s ∈ segs.map PathEscape, Ordinary s := by
    intro s hs
    obtain ⟨x, hx, rfl⟩ := List.mem_map.1 hs
    exact Ordinary_PathEscape (hsegs x hx)
  have hesck : ∀ s ∈ segs.map PathEscape, Kept s := fun s hs => (hesc s hs).kept
  have hne1 : segs.map PathEscape ≠ [] := by simpa using hne
  have hNF := NF_cleanElems (IsAbs pfx) pfx
  have hpfx : pfx = renderD true (cleanElems true pfx) := by
    have := Clean_spec pfx hp
    rw [hclean, habs] at this
    exact this
  unfold makeResourcePath
  rw [foldl_snoc_map, List.nil_append]
  dsimp only
  rw [Join_real _ hne1 hesc, Join_pair _ _ hp, habs,
    elems_stringsJoin _ hesck, foldl_real _ _ _ (fun s hs => (hesc s hs).2.2.2)]
  rw [habs] at hNF
  rw [render_append true _ _ (NF_kept hNF) (Or.inl rfl) hne1 hesck, ← hpfx]

/-- C2: for every clean absolute prefix and every non-empty list of ordinary
segments (non-empty, without slash, not `.` or `..`, otherwise arbitrary bytes),
stripping the prefix from `makeResourcePath(prefix)(segments...)`, splitting the
remainder on the slash and percent-decoding each piece gives back exactly the
segments. -/
theorem resourcePath_roundtrip (pfx : GoString) (segs : List GoString)
    (hclean : Clean pfx = pfx) (habs : IsAbs pfx = true) (hne : segs ≠ [])
    (hsegs : ∀ s ∈ segs, Ordinary s) (hbytes : ∀ s ∈ segs, ∀ b ∈ s, b < 256) :
    specDecode pfx (makeResourcePath pfx segs) = some segs := by
  have hesc : ∀ s ∈ segs.map PathEscape, Ordinary s := by
    intro s hs
    obtain ⟨x, hx, rfl⟩ := List.mem_map.1 hs
    exact Ordinary_PathEscape (hsegs x hx)
  have hne1 : segs.map PathEscape ≠ [] := by simpa using hne
  have hsplit := splitSep_stringsJoin _ hne1 (fun s hs => (hesc s hs).2.1)
  have hfilter : List.filter (fun s => decide (s ≠ [])) (segs.map PathEscape) =
      segs.map PathEscape := by
    rw [List.filter_eq_self]
    intro s hs
    simpa using (hesc s hs).1
  rw [resourcePath_eq pfx segs hclean habs hne hsegs]
  unfold specDecode
  by_cases h47 : pfx = [47]
  · rw [if_pos h47]
    have hpre : pfx.isPrefixOf (pfx ++ stringsJoin (segs.map PathEscape) [47]) = true :=
      List.isPrefixOf_iff_prefix.2 (List.prefix_append _ _)
    rw [if_pos hpre, List.drop_left, hsplit, hfilter]
    exact unescapeAll_map_PathEscape segs hbytes
  · rw [if_neg h47]
    have hpre : pfx.isPrefixOf (pfx ++ [47] ++ stringsJoin (segs.map PathEscape) [47]) = true :=
      List.isPrefixOf_iff_prefix.2 (by rw [List.append_assoc]; exact List.prefix_append _ _)
    rw [if_pos hpre, List.append_assoc, List.drop_left, List.singleton_append, splitSep_sep_cons,
      hsplit, List.filter_cons_of_neg (by simp), hfilter]
    exact unescapeAll_map_PathEscape segs hbytes

/-- Witness of C2: segments with a space, a percent sign and a non-ASCII
character under the prefix `/api/v1/dust`. -/
theorem resourcePath_roundtrip_witness :
    Clean (bytes "/api/v1/dust") = bytes "/api/v1/dust" ∧ IsAbs (bytes "/api/v1/dust") = true ∧
      specDecode (bytes "/api/v1/dust")
        (makeResourcePath (bytes "/api/v1/dust") [bytes "my dir", bytes "100%", bytes "é.lua"]) =
        some [bytes "my dir", bytes "100%", bytes "é.lua"] :=
  ⟨by decide, by decide,
    resourcePath_roundtrip _ _ (by decide) (by decide) (by decide) (by decide) (by decide)⟩

/-- C3: `handleDirRead` returns the given path, the url `resourcePath("")`, and
exactly one entry per input entry in the same order; each entry carries the
name of the child and the url `resourcePath(name)`, with no children (nil) for a
non-directory and a present, empty children list for a directory. -/
theorem handleDirRead_shape (path : GoString) (entries : List FileInfo)
    (resourcePath : List GoString → GoString) :
    (handleDirRead path entries resourcePath).Path = path ∧
      (handleDirRead path entries resourcePath).URL = resourcePath [[]] ∧
      (handleDirRead path entries resourcePath).Entries.length = entries.length ∧
      (handleDirRead path entries resourcePath).Entries =
        entries.map (fun entry =>
          fileInfo.mk entry.Name (resourcePath [entry.Name])
            (if entry.IsDir then some [] else none)) := by
  have h : (handleDirRead path entries resourcePath).Entries =
      entries.map (fun entry =>
        fileInfo.mk entry.Name (resourcePath [entry.Name])
          (if entry.IsDir then some [] else none)) := by
    unfold handleDirRead
    simp only
    rw [foldl_snoc_map (fun entry : FileInfo =>
      fileInfo.mk entry.Name (resourcePath [entry.Name]) (if entry.IsDir then some [] else none))]
    simp
  refine ⟨rfl, rfl, ?_, h⟩
  rw [h, List.length_map]

/-- C7, as amended: for every data root, every resource name whose last segment
is an ordinary name and whose `..` segments never climb above the root (every
clean name is one) and every new name that is a single ordinary segment
(non-empty, without slash, not `.` or `..`), when the source exists the one call
`renameHandler` makes is `os.Rename(devicePath(n), devicePath(rename))` with the
rename target `rename = filepath.Join(filepath.Dir(n), newName)`; the target has
the same parent directory as `n`, and the destination handed to `os.Rename` has
the same parent directory as the source handed to it. -/
theorem rename_keeps_parent (root n b : GoString)
    (osStat : GoString → Except GoString FileInfo)
    (osRename : GoString → GoString → Option GoString) (info : FileInfo)
    (hstat : osStat (makeDevicePath root n) = .ok info) (hb : Ordinary b)
    (hl : Ordinary (lastSeg n)) (hcl : climbsAbove 0 (splitSep n) = false) :
    (renameHandler (mkServer root) n osStat (some b) osRename).2 =
        [(makeDevicePath root n, makeDevicePath root (Join [Dir n, b]))] ∧
      Dir (Join [Dir n, b]) = Dir n ∧
      (renameHandler (mkServer root) n osStat (some b) osRename).2.map (fun c => Dir c.2) =
        (renameHandler (mkServer root) n osStat (some b) osRename).2.map (fun c => Dir c.1) := by
  have hcall : (renameHandler (mkServer root) n osStat (some b) osRename).2 =
      [(makeDevicePath root n, makeDevicePath root (Join [Dir n, b]))] := by
    unfold renameHandler
    simp only [mkServer, hstat]
    cases osRename (makeDevicePath root n) (makeDevicePath root (Join [Dir n, b])) with
    | none => rfl
    | some err => rfl
  refine ⟨hcall, Dir_Join_Dir n b hb, ?_⟩
  rw [hcall]
  simp only [List.map_cons, List.map_nil]
  rw [devicePath_rename root n b hb hl hcl, Dir_Join_Dir _ b hb]

/-- C8, as amended: for every prefix string `p`, `makeResourcePath(p)("")` is the
empty string when `p` is empty and `filepath.Clean(p)` otherwise; so
`makeResourcePath(p)("") == p` holds exactly when `p` is empty or already
cleaned (`filepath.Clean(p) == p`). -/
theorem resourcePath_self (p : GoString) :
    makeResourcePath p [[]] = (if p = [] then [] else Clean p) ∧
      (makeResourcePath p [[]] = p ↔ (p = [] ∨ Clean p = p)) := by
  refine ⟨resourcePath_empty p, ?_⟩
  rw [resourcePath_empty]
  by_cases hp : p = []
  · rw [if_pos hp]
    exact ⟨fun _ => Or.inl hp, fun _ => hp.symm⟩
  · rw [if_neg hp]
    exact ⟨fun h => Or.inr h, fun h => h.resolve_left hp⟩

/-- The listing of the entries `a.txt` (a file) and `b` (a directory) has exactly
two entries, `a.txt` without children and `b` with an empty children list. -/
theorem handleDirRead_example (path : GoString) (resourcePath : List GoString → GoString) :
    (handleDirRead path [⟨bytes "a.txt", false⟩, ⟨bytes "b", true⟩] resourcePath).Entries.map
        (fun e => (e.Name, e.Children)) =
      [(bytes "a.txt", none), (bytes "b", some [])] := rfl

/-- Witness of C7 as amended: under the root `data/`, `/foo/bar.txt` renamed to
`baz.txt` is moved to `data/foo/baz.txt`, in the parent `data/foo` of the
source. -/
theorem rename_keeps_parent_witness :
    (fun _ => Except.ok ⟨bytes "bar.txt", false⟩ : GoString → Except GoString FileInfo)
        (makeDevicePath (bytes "data/") (bytes "/foo/bar.txt")) = .ok ⟨bytes "bar.txt", false⟩ ∧
      Ordinary (bytes "baz.txt") ∧ Ordinary (lastSeg (bytes "/foo/bar.txt")) ∧
      climbsAbove 0 (splitSep (bytes "/foo/bar.txt")) = false ∧
      ((renameHandler (mkServer (bytes "data/")) (bytes "/foo/bar.txt")
          (fun _ => .ok ⟨bytes "bar.txt", false⟩) (some (bytes "baz.txt")) (fun _ _ => none)).2 =
          [(makeDevicePath (bytes "data/") (bytes "/foo/bar.txt"),
            makeDevicePath (bytes "data/") (Join [Dir (bytes "/foo/bar.txt"), bytes "baz.txt"]))] ∧
        Dir (Join [Dir (bytes "/foo/bar.txt"), bytes "baz.txt"]) = Dir (bytes "/foo/bar.txt") ∧
        (renameHandler (mkServer (bytes "data/")) (bytes "/foo/bar.txt")
          (fun _ => .ok ⟨bytes "bar.txt", false⟩) (some (bytes "baz.txt"))
          (fun _ _ => none)).2.map (fun c => Dir c.2) =
        (renameHandler (mkServer (bytes "data/")) (bytes "/foo/bar.txt")
          (fun _ => .ok ⟨bytes "bar.txt", false⟩) (some (bytes "baz.txt"))
          (fun _ _ => none)).2.map (fun c => Dir c.1)) ∧
      (renameHandler (mkServer (bytes "data/")) (bytes "/foo/bar.txt")
        (fun _ => .ok ⟨bytes "bar.txt", false⟩) (some (bytes "baz.txt")) (fun _ _ => none)).2 =
        [(bytes "data/foo/bar.txt", bytes "data/foo/baz.txt")] :=
  ⟨rfl, by decide, by decide, by decide,
    rename_keeps_parent (bytes "data/") (bytes "/foo/bar.txt") (bytes "baz.txt")
      (fun _ => .ok ⟨bytes "bar.txt", false⟩) (fun _ _ => none) ⟨bytes "bar.txt", false⟩ rfl
      (by decide) (by decide) (by decide),
    by decide⟩

/-- Counterexample to C7 as stated: the clean name `/foo/bar.txt` with the new
name `../baz.txt` gives the target `/baz.txt`, whose parent `/` is not the
parent `/foo` of the source; the rename moves `data/foo/bar.txt` to
`data/baz.txt`. -/
theorem rename_relocates :
    Join [Dir (bytes "/foo/bar.txt"), bytes "../baz.txt"] = bytes "/baz.txt" ∧
      Dir (Join [Dir (bytes "/foo/bar.txt"), bytes "../baz.txt"]) = bytes "/" ∧
      Dir (bytes "/foo/bar.txt") = bytes "/foo" ∧
      Dir (Join [Dir (bytes "/foo/bar.txt"), bytes "../baz.txt"]) ≠ Dir (bytes "/foo/bar.txt") ∧
      (renameHandler (mkServer (bytes "data/")) (bytes "/foo/bar.txt")
        (fun _ => .ok ⟨bytes "bar.txt", false⟩) (some (bytes "../baz.txt")) (fun _ _ => none)).2 =
        [(bytes "data/foo/bar.txt", bytes "data/baz.txt")] ∧
      (renameHandler (mkServer (bytes "data/")) (bytes "/foo/bar.txt")
        (fun _ => .ok ⟨bytes "bar.txt", false⟩) (some (bytes "../baz.txt"))
        (fun _ _ => none)).2.map (fun c => Dir c.2) ≠
      (renameHandler (mkServer (bytes "data/")) (bytes "/foo/bar.txt")
        (fun _ => .ok ⟨bytes "bar.txt", false⟩) (some (bytes "../baz.txt"))
        (fun _ _ => none)).2.map (fun c => Dir c.1) := by
  refine ⟨by decide, by decide, by decide, by decide, by decide, by decide⟩

/-- Witness of C8 as amended: the prefix `/api/v1/dust` built by `main` is
cleaned, so it is its own self url; the empty prefix gives the empty string. -/
theorem resourcePath_self_witness :
    (bytes "/api/v1/dust" = [] ∨ Clean (bytes "/api/v1/dust") = bytes "/api/v1/dust") ∧
      makeResourcePath (bytes "/api/v1/dust") [[]] = bytes "/api/v1/dust" ∧
      makeResourcePath [] [[]] = [] :=
  ⟨Or.inr (by decide), (resourcePath_self (bytes "/api/v1/dust")).2.2 (Or.inr (by decide)),
    ((resourcePath_self []).2.2 (Or.inl rfl))⟩

/-- Counterexample to C8 as stated: the prefix `/api/` gives `/api`, which is
`filepath.Clean` of the prefix and not the prefix itself. -/
theorem resourcePath_self_unclean :
    makeResourcePath (bytes "/api/") [[]] = bytes "/api" ∧
      Clean (bytes "/api/") = bytes "/api" ∧
      makeResourcePath (bytes "/api/") [[]] ≠ bytes "/api/" := by
  refine ⟨by decide, by decide, by decide⟩

/-- C5, the code at the failing input: renaming `/foo/bar.txt` to `baz.txt`
answers the url `/api/v1/dust/%2Ffoo%2Fbaz.txt`, with the slashes of the new
resource name percent-encoded, and not `/api/v1/dust/foo/baz.txt`, the url the
listing of `/foo` gives to the renamed entry. -/
theorem renameHandler_url_escapes_slash :
    (renameHandler (mkServer (bytes "data/")) (bytes "/foo/bar.txt")
        (fun _ => .ok ⟨bytes "bar.txt", false⟩) (some (bytes "baz.txt"))
        (fun _ _ => none)).1.patchURL = some (bytes "/api/v1/dust/%2Ffoo%2Fbaz.txt") ∧
      (renameHandler (mkServer (bytes "data/")) (bytes "/foo/bar.txt")
        (fun _ => .ok ⟨bytes "bar.txt", false⟩) (some (bytes "baz.txt"))
        (fun _ _ => none)).1.patchURL ≠ some (bytes "/api/v1/dust/foo/baz.txt") ∧
      (listingHandler (mkServer (bytes "data/")) (bytes "/foo")
        (fun _ => .ok ⟨bytes "foo", true⟩)
        (fun _ => .ok [⟨bytes "baz.txt", false⟩])).dir.map
          (fun d => d.Entries.map fileInfo.URL) = some [bytes "/api/v1/dust/foo/baz.txt"] := by
  refine ⟨by decide, by decide, by decide⟩

/-- C6, as amended: `renameHandler` answers 404 without a rename when the stat of
the source fails; otherwise 400 without a rename when the `name` key is
missing from the form; otherwise it makes exactly one `os.Rename` call, from the
source to `devicePath(Join(Dir(n), newName))`, whatever the new name is (the
empty string included), and answers 500 when that call fails and 200 with the
url `resourcePath(Join(Dir(n), newName))` when it succeeds. -/
theorem renameHandler_classification (s : server) (n : GoString)
    (osStat : GoString → Except GoString FileInfo) (postForm : Option GoString)
    (osRename : GoString → GoString → Option GoString) :
    match osStat (s.devicePath n), postForm with
    | .error _, _ =>
      (renameHandler s n osStat postForm osRename).1.status = some 404 ∧
        (renameHandler s n osStat postForm osRename).2 = []
    | .ok _, none =>
      (renameHandler s n osStat postForm osRename).1.status = some 400 ∧
        (renameHandler s n osStat postForm osRename).2 = []
    | .ok _, some newName =>
      (renameHandler s n osStat postForm osRename).2 =
          [(s.devicePath n, s.devicePath (Join [Dir n, newName]))] ∧
        match osRename (s.devicePath n) (s.devicePath (Join [Dir n, newName])) with
        | some _ => (renameHandler s n osStat postForm osRename).1.status = some 500
        | none =>
          (renameHandler s n osStat postForm osRename).1.status = some 200 ∧
            (renameHandler s n osStat postForm osRename).1.patchURL =
              some (s.resourcePath [Join [Dir n, newName]]) := by
  unfold renameHandler
  cases h1 : osStat (s.devicePath n) with
  | error err => simp [h1, Response.status]
  | ok info =>
    cases postForm with
    | none => simp [h1, Response.status]
    | some newName =>
      simp only
      cases h2 : osRename (s.devicePath n) (s.devicePath (Join [Dir n, newName])) with
      | none => simp [h1, Response.status, Response.patchURL]
      | some err => simp [h1, Response.status]

/-- Counterexample to C6 as stated: with the source present and the form field
`name` present but empty, the handler does not answer 400: it calls
`os.Rename(data/foo/bar.txt, data/foo)` and answers 500 when that fails. -/
theorem renameHandler_empty_name :
    (renameHandler (mkServer (bytes "data/")) (bytes "/foo/bar.txt")
        (fun _ => .ok ⟨bytes "bar.txt", false⟩) (some [])
        (fun _ _ => some (bytes "rename failed"))).1.status = some 500 ∧
      (renameHandler (mkServer (bytes "data/")) (bytes "/foo/bar.txt")
        (fun _ => .ok ⟨bytes "bar.txt", false⟩) (some [])
        (fun _ _ => some (bytes "rename failed"))).2 =
        [(bytes "data/foo/bar.txt", bytes "data/foo")] ∧
      ¬ ((renameHandler (mkServer (bytes "data/")) (bytes "/foo/bar.txt")
        (fun _ => .ok ⟨bytes "bar.txt", false⟩) (some [])
        (fun _ _ => some (bytes "rename failed"))).1.status = some 400 ∧
        (renameHandler (mkServer (bytes "data/")) (bytes "/foo/bar.txt")
        (fun _ => .ok ⟨bytes "bar.txt", false⟩) (some [])
        (fun _ _ => some (bytes "rename failed"))).2 = []) := by
  refine ⟨by decide, by decide, by decide⟩

/-- C9, the code at the failing input: the listing of the directory `/my dir`
reports its own url as `/api/v1/dust/my dir` and the url of its child `c.txt` as
`/api/v1/dust/my dir/c.txt`, with the space not percent-encoded, while the
listing of the root reports `/api/v1/dust/my%20dir` for the same directory and
the canonical url of the child is `/api/v1/dust/my%20dir/c.txt`. -/
theorem listingHandler_url_unescaped :
    (listingHandler (mkServer (bytes "data/")) (bytes "/my dir")
        (fun _ => .ok ⟨bytes "my dir", true⟩)
        (fun _ => .ok [⟨bytes "c.txt", false⟩])).dir.map dirInfo.URL =
        some (bytes "/api/v1/dust/my dir") ∧
      (listingHandler (mkServer (bytes "data/")) (bytes "/my dir")
        (fun _ => .ok ⟨bytes "my dir", true⟩)
        (fun _ => .ok [⟨bytes "c.txt", false⟩])).dir.map
          (fun d => d.Entries.map fileInfo.URL) = some [bytes "/api/v1/dust/my dir/c.txt"] ∧
      (rootListingHandler (mkServer (bytes "data/"))
        (fun _ => .ok [⟨bytes "my dir", true⟩])).dir.map
          (fun d => d.Entries.map fileInfo.URL) = some [bytes "/api/v1/dust/my%20dir"] ∧
      makeResourcePath (bytes "/api/v1/dust") [bytes "my dir", bytes "c.txt"] =
        bytes "/api/v1/dust/my%20dir/c.txt" := by
  refine ⟨by decide, by decide, by decide, by decide⟩

end Maiden
